import Mathlib

/-!
Verification development for the `cate`/`ect` repository fragment consisting of
`src/cate/ops/data_frame.py` (data-frame operations) and `src/ect/core/cli.py`
(the command-line interface).  The data model and the operations are shallowly
embedded below; parts of the repository that the claims depend on but whose
code is not shipped under `src/` (the operation registry, the dispatch layer
and the workflow-graph module) are modelled from the specification and marked
as such in their doc comments.
-/

set_option maxRecDepth 4000

/-! ## A fragment of Python values and expressions

`Run.execute` in `src/ect/core/cli.py` converts every raw operation-argument
string by `eval(arg)`, falling back to the raw string when the evaluation
raises `SyntaxError` or `NameError`.  The embedding below models the fragment
of Python expressions that the analysed behaviour exercises: literal atoms
(integers, booleans, single-quoted strings), bare identifiers, a binary `+`
between two atoms, and flat bracketed list displays.  Strings outside this
fragment are treated as unparsable (Python `SyntaxError`), which is the
conservative direction for the fall-back-to-string behaviour.
-/

/-- A scalar Python value of the modelled fragment. -/
inductive PyScalar where
  | int (n : Int)
  | bool (b : Bool)
  | str (s : String)
deriving DecidableEq

/-- A Python value, as produced by the CLI argument conversion.  List values
of the modelled fragment are flat lists of scalars (the only lists the
analysed conversions ever build). -/
inductive PyVal where
  | int (n : Int)
  | bool (b : Bool)
  | str (s : String)
  | list (vs : List PyScalar)
deriving DecidableEq

/-- View a scalar as a value. -/
def PyScalar.toVal : PyScalar → PyVal
  | PyScalar.int n => PyVal.int n
  | PyScalar.bool b => PyVal.bool b
  | PyScalar.str s => PyVal.str s

/-- An atomic Python expression: a scalar literal or a bare name. -/
inductive PyAtom where
  | lit (v : PyScalar)
  | name (s : String)
deriving DecidableEq

/-- A Python expression of the modelled fragment. -/
inductive PyExpr where
  | atom (a : PyAtom)
  | add (a b : PyAtom)
  | listE (es : List PyScalar)
deriving DecidableEq

/-- Python runtime errors relevant to the CLI conversion: `NameError` is
caught by `Run.execute`; every other error (modelled by `typeError`)
propagates out of the command. -/
inductive PyErr where
  | nameError
  | typeError
deriving DecidableEq

instance {ε α : Type} [DecidableEq ε] [DecidableEq α] : DecidableEq (Except ε α) :=
  fun a b =>
  match a, b with
  | Except.ok x, Except.ok y =>
    if h : x = y then isTrue (by rw [h]) else isFalse (by simp [h])
  | Except.error x, Except.error y =>
    if h : x = y then isTrue (by rw [h]) else isFalse (by simp [h])
  | Except.ok _, Except.error _ => isFalse (by simp)
  | Except.error _, Except.ok _ => isFalse (by simp)

/-! Text utilities.  They operate on `List Char` by structural recursion so
that every concrete computation reduces inside the kernel (the corresponding
`String` library loops are defined by well-founded recursion on byte
positions and do not). -/

/-- The single-quote character, used by the string-literal recogniser. -/
def quoteChar : Char := Char.ofNat 39

/-- ASCII decimal digit. -/
def isDigitChar (c : Char) : Bool := 48 ≤ c.toNat && c.toNat ≤ 57

/-- ASCII letter. -/
def isAlphaChar (c : Char) : Bool :=
  (65 ≤ c.toNat && c.toNat ≤ 90) || (97 ≤ c.toNat && c.toNat ≤ 122)

/-- ASCII blank. -/
def isBlankChar (c : Char) : Bool := c.toNat = 32

/-- Accumulate decimal digits into a number; any non-digit fails. -/
def natOfDigitsAux : List Char → Nat → Option Nat
  | [], acc => some acc
  | c :: cs, acc =>
    if isDigitChar c then natOfDigitsAux cs (acc * 10 + (c.toNat - 48)) else none

/-- A Python integer literal (optionally negated), e.g. `12` or `-3`. -/
def parseIntChars : List Char → Option Int
  | [] => none
  | c :: cs =>
    if c = Char.ofNat 45 then
      match cs with
      | [] => none
      | _ => (natOfDigitsAux cs 0).map (fun n => -(n : Int))
    else (natOfDigitsAux (c :: cs) 0).map (fun n => (n : Int))

/-- Strip leading and trailing blanks. -/
def trimChars (cs : List Char) : List Char :=
  ((cs.dropWhile isBlankChar).reverse.dropWhile isBlankChar).reverse

/-- Split at every comma. -/
def splitCommas : List Char → List (List Char)
  | [] => [[]]
  | c :: cs =>
    let r := splitCommas cs
    if c = Char.ofNat 44 then [] :: r
    else
      match r with
      | [] => [[c]]
      | h :: t => (c :: h) :: t

/-- Model of Python `str.isidentifier` restricted to ASCII: nonempty, the
first character a letter or underscore, the rest letters, digits or
underscores. -/
def isPyIdent (s : String) : Bool :=
  match s.toList with
  | [] => false
  | c :: cs => (isAlphaChar c || c = Char.ofNat 95) &&
      cs.all (fun d => isAlphaChar d || isDigitChar d || d = Char.ofNat 95)

/-- Recognise a scalar Python literal: an integer literal, `True`/`False`, or
a single-quoted string containing no quote character. -/
def litAtom (s : String) : Option PyScalar :=
  if s = "True" then some (PyScalar.bool true)
  else if s = "False" then some (PyScalar.bool false)
  else match parseIntChars s.toList with
  | some n => some (PyScalar.int n)
  | none =>
    let cs := s.toList
    if cs.length ≥ 2 then
      if cs.head? = some quoteChar ∧ cs.getLast? = some quoteChar ∧
          (cs.drop 1).dropLast.all (fun c => c ≠ quoteChar) then
        some (PyScalar.str (String.mk ((cs.drop 1).dropLast)))
      else none
    else none

/-- Parse an atomic expression: a scalar literal or an identifier. -/
def parseAtom (s : String) : Option PyAtom :=
  match litAtom s with
  | some v => some (PyAtom.lit v)
  | none => if isPyIdent s then some (PyAtom.name s) else none

/-- Split a string at the first occurrence of a separator character,
returning the pieces before and after it, or `none` when absent. -/
def splitOnceChar (sep : Char) (s : String) : Option (String × String) :=
  match s.toList.findIdx? (fun c => c = sep) with
  | none => none
  | some i => some (String.mk (s.toList.take i), String.mk (s.toList.drop (i + 1)))

/-- The comma-separated element strings of a bracketed list body, with
surrounding blanks trimmed (Python tolerates blanks around elements). -/
def listElems (body : List Char) : List String :=
  if trimChars body = [] then []
  else (splitCommas body).map (fun e => String.mk (trimChars e))

/-- Is the char list of the shape `[` … `]`? -/
def isBracketed (cs : List Char) : Bool :=
  cs.head? = some (Char.ofNat 91) && cs.getLast? = some (Char.ofNat 93) &&
    cs.length ≥ 2

/-- Parse a string of the modelled Python expression fragment.  `none` models
a Python `SyntaxError`. -/
def pyParse (s : String) : Option PyExpr :=
  match parseAtom s with
  | some a => some (PyExpr.atom a)
  | none =>
    if isBracketed s.toList then
      ((listElems ((s.toList.drop 1).dropLast)).mapM litAtom).map PyExpr.listE
    else
      match splitOnceChar (Char.ofNat 43) s with
      | some (a, b) =>
        match parseAtom a, parseAtom b with
        | some ea, some eb => some (PyExpr.add ea eb)
        | _, _ => none
      | none => none

/-- Evaluate an atom under an environment of bound names.  An unbound name
raises `NameError`, as in Python. -/
def evalAtom (env : String → Option PyVal) : PyAtom → Except PyErr PyVal
  | PyAtom.lit v => Except.ok v.toVal
  | PyAtom.name s =>
    match env s with
    | some v => Except.ok v
    | none => Except.error PyErr.nameError

/-- Python binary `+` on the modelled values; mismatched operand kinds raise
`TypeError`. -/
def pyAdd : PyVal → PyVal → Except PyErr PyVal
  | PyVal.int a, PyVal.int b => Except.ok (PyVal.int (a + b))
  | PyVal.str a, PyVal.str b => Except.ok (PyVal.str (a ++ b))
  | PyVal.list a, PyVal.list b => Except.ok (PyVal.list (a ++ b))
  | _, _ => Except.error PyErr.typeError

/-- Evaluate an expression of the fragment, as Python `eval` does. -/
def pyEval (env : String → Option PyVal) : PyExpr → Except PyErr PyVal
  | PyExpr.atom a => evalAtom env a
  | PyExpr.add a b =>
    match evalAtom env a with
    | Except.error e => Except.error e
    | Except.ok va =>
      match evalAtom env b with
      | Except.error e => Except.error e
      | Except.ok vb => pyAdd va vb
  | PyExpr.listE es => Except.ok (PyVal.list es)

/-- `Run.execute`'s per-argument conversion (`src/ect/core/cli.py`, lines
134-139): try `eval(arg)`; on `SyntaxError` (here: an unparsable string) or
`NameError` keep the raw string; any other error propagates uncaught. -/
def convertArg (env : String → Option PyVal) (s : String) : Except PyErr PyVal :=
  match pyParse s with
  | none => Except.ok (PyVal.str s)
  | some e =>
    match pyEval env e with
    | Except.ok v => Except.ok v
    | Except.error PyErr.nameError => Except.ok (PyVal.str s)
    | Except.error e => Except.error e

/-! ### The literal parser described by the specification

Design note 3 of the specification calls for an explicit literal parser over a
fixed grammar (numeric, boolean, string, bracketed-list) that never evaluates
code.  The definition below follows the specification's words and exists only
to be compared with `convertArg`, which is translated from the source. -/

/-- Modelled from the spec: recognise a literal of the fixed grammar —
numeric, boolean, quoted string, or a bracketed list of such literals.
Returns `none` on anything else (which the parser would keep as a plain
string). -/
def specRecognize (s : String) : Option PyVal :=
  match litAtom s with
  | some v => some v.toVal
  | none =>
    if isBracketed s.toList then
      ((listElems ((s.toList.drop 1).dropLast)).mapM litAtom).map PyVal.list
    else none

/-- Modelled from the spec: the full literal parser — a recognised literal
converts to its value, everything else stays a string.  It is a pure function
of the argument text: no name lookup and no evaluation happens. -/
def specLiteralParse (s : String) : PyVal :=
  match specRecognize s with
  | some v => v
  | none => PyVal.str s

/-! ## Data frames (`src/cate/ops/data_frame.py`)

A pandas data frame is modelled as a list of row index labels together with
named columns of values, plus the geo-frame data (`geopandas.GeoDataFrame`
carries a coordinate reference system).  Column values are integers: the
claims under analysis assume the selected column holds comparable values, and
integers embed that hypothesis.  `DataFrameLike.convert` is the identity on
values that already are data frames, which is the case the claims quantify
over, so the conversion does not appear separately. -/

/-- A (geo-)data frame: row index labels, named columns, and geo-frame data.
`geo = true` models `isinstance(df, gpd.GeoDataFrame)`; `crs` is its
coordinate reference system. -/
structure DataFrame where
  index : List Nat
  cols : List (String × List Int)
  geo : Bool
  crs : Option String
deriving DecidableEq

/-- Column lookup, as `data_frame[var_name]` (first match wins). -/
def lookupCol (cols : List (String × List Int)) (var : String) : Option (List Int) :=
  match cols with
  | [] => none
  | (n, vs) :: rest => if n = var then some vs else lookupCol rest var

/-- Column names, in declaration order. -/
def colNames (df : DataFrame) : List String := df.cols.map (fun c => c.1)

/-- Number of rows of a frame. -/
def rowCount (df : DataFrame) : Nat := df.index.length

/-- A frame is well formed when every column has exactly one value per row. -/
def wfFrame (df : DataFrame) : Bool :=
  df.cols.all (fun c => c.2.length = df.index.length)

/-- The minimum of a list of values (`0` on the empty list, which the
operations never consult). -/
def minVal : List Int → Int
  | [] => 0
  | [v] => v
  | v :: w :: rest => min v (minVal (w :: rest))

/-- The maximum of a list of values. -/
def maxVal : List Int → Int
  | [] => 0
  | [v] => v
  | v :: w :: rest => max v (maxVal (w :: rest))

/-- Position of the first occurrence of a value in a list (length when
absent). -/
def firstIdx (a : Int) : List Int → Nat
  | [] => 0
  | v :: rest => if v = a then 0 else firstIdx a rest + 1

/-- Position of the first minimal value: `Series.idxmin` returns the index
label at this position. -/
def argminPos (vs : List Int) : Nat := firstIdx (minVal vs) vs

/-- Position of the first maximal value, as `Series.idxmax`. -/
def argmaxPos (vs : List Int) : Nat := firstIdx (maxVal vs) vs

/-- Select the values of a column at the rows whose index label equals
`lbl`, preserving row order — the column part of `data_frame.loc[[lbl]]`. -/
def selectByLabel (index : List Nat) (vs : List Int) (lbl : Nat) : List Int :=
  ((index.zip vs).filter (fun p => p.1 = lbl)).map (fun p => p.2)

/-- `data_frame.loc[[lbl]]`: the sub-frame of all rows whose index label
equals `lbl` (pandas keeps every row carrying a duplicated label).  Row-label
selection preserves the frame kind and its crs. -/
def locLabel (df : DataFrame) (lbl : Nat) : DataFrame :=
  { index := df.index.filter (fun i => i = lbl)
    cols := df.cols.map (fun c => (c.1, selectByLabel df.index c.2 lbl))
    geo := df.geo
    crs := df.crs }

/-- `_maybe_convert_to_geo_data_frame` (`src/cate/ops/data_frame.py`, lines
150-154): when the input frame is a `GeoDataFrame` and the computed frame is
not, rebuild the result as a `GeoDataFrame` carrying the input's crs;
otherwise return the computed frame unchanged. -/
def maybe_convert_to_geo_data_frame (data_frame data_frame_2 : DataFrame) : DataFrame :=
  if data_frame.geo ∧ ¬ data_frame_2.geo then
    { data_frame_2 with geo := true, crs := data_frame.crs }
  else data_frame_2

/-- `data_frame_min` (`src/cate/ops/data_frame.py`, lines 42-54): select the
record(s) at the index label returned by `idxmin` on the chosen column.
`none` models the exceptions pandas raises for a missing column (`KeyError`)
or an empty column (`idxmin` on an empty series). -/
def data_frame_min (df : DataFrame) (var : String) : Option DataFrame :=
  match lookupCol df.cols var with
  | none => none
  | some vs =>
    if vs.isEmpty then none
    else
      some (maybe_convert_to_geo_data_frame df
        (locLabel df (df.index.getD (argminPos vs) 0)))

/-- `data_frame_max` (`src/cate/ops/data_frame.py`, lines 60-72), the `idxmax`
counterpart of `data_frame_min`. -/
def data_frame_max (df : DataFrame) (var : String) : Option DataFrame :=
  match lookupCol df.cols var with
  | none => none
  | some vs =>
    if vs.isEmpty then none
    else
      some (maybe_convert_to_geo_data_frame df
        (locLabel df (df.index.getD (argmaxPos vs) 0)))

/-- Filter a column by a row-position predicate. -/
def filterColByPos (keep : Nat → Bool) (vs : List Int) : List Int :=
  ((List.range vs.length).zip vs).filterMap
    (fun p => if keep p.1 then some p.2 else none)

/-- The sub-frame of the rows at positions satisfying `keep`; row filtering
preserves the frame kind and its crs (as pandas `DataFrame.query` and
`GeoDataFrame.query` do). -/
def filterRows (df : DataFrame) (keep : Nat → Bool) : DataFrame :=
  { index := ((List.range df.index.length).zip df.index).filterMap
      (fun p => if keep p.1 then some p.2 else none)
    cols := df.cols.map (fun c => (c.1, filterColByPos keep c.2))
    geo := df.geo
    crs := df.crs }

/-- `data_frame_query` (`src/cate/ops/data_frame.py`, lines 78-142): keep the
records on which the query expression evaluates to true, then apply the geo
conversion.  The pandas query-expression evaluator (including the geometric
relationship tests installed in `local_dict`) is external; it is abstracted
as a predicate `query_expr` on row positions. -/
def data_frame_query (df : DataFrame) (query_expr : Nat → Bool) : DataFrame :=
  maybe_convert_to_geo_data_frame df (filterRows df query_expr)

/-! ## Dispatch validation of `value_set_source` inputs

The dispatch layer (`cate.core.op`) is not part of the shipped sources; only
the declarations `@op_input('var', value_set_source='df', ...)` on
`data_frame_min` and `data_frame_max` are.  Following the specification
(§4.2), the validation is modelled for exactly the declared situation: the
`var` input of a data-frame operation whose value set derives from the
columns of the already-resolved `df` input. -/

/-- Errors raised at the dispatch boundary. -/
inductive DispatchErr where
  | validationError
  | argumentError (kw : String)
deriving DecidableEq

/-- Modelled from the spec: dispatch of an operation whose `var` input
declares `value_set_source='df'`.  The bound `var` must be a member of the
domain derived from the resolved `df` value — its column names; violation
fails with `ValidationError` before the operation body runs, acceptance
invokes the body exactly once. -/
def dispatchValueSetSource (df : DataFrame) (var : String)
    (body : DataFrame → String → Option DataFrame) :
    Except DispatchErr (Option DataFrame) :=
  if (colNames df).contains var then Except.ok (body df var)
  else Except.error DispatchErr.validationError

/-! ## The operation registry

`ect.core.op`/`cate.core.op` is not among the shipped sources; the registry
is modelled from the specification (§3, §4.1).  A callable is identified
abstractly by a number: the registry never inspects it. -/

/-- An input declaration of a signature: name plus the optional
`value_set_source` (the name of another input constraining this one). -/
structure InputSpec where
  name : String
  valueSetSource : Option String
deriving DecidableEq

/-- Modelled from the spec: an operation signature — unique name, version,
tags, ordered input and output declarations.  Immutable once registered. -/
structure OpSignature where
  name : String
  version : String
  tags : List String
  inputs : List InputSpec
  outputs : List String
deriving DecidableEq

/-- The registry: a mapping from operation name to (signature, callable). -/
def Registry : Type := List (String × OpSignature × Nat)

/-- Lookup of a registered operation by name. -/
def regLookup (reg : Registry) (name : String) : Option (OpSignature × Nat) :=
  match reg with
  | [] => none
  | (n, sc) :: rest => if n = name then some sc else regLookup rest name

/-- A registration conflict error. -/
inductive RegErr where
  | conflict (name : String)
deriving DecidableEq

/-- Modelled from the spec: `register(signature, callable)` — fails with a
conflict error when the name exists with a different signature, is a no-op on
identical re-registration, and inserts otherwise.  The returned registry is
unchanged in both non-inserting cases. -/
def registerOp (reg : Registry) (sig : OpSignature) (callable : Nat) :
    Registry × Option RegErr :=
  match regLookup reg sig.name with
  | some (sig0, _) =>
    if sig0 = sig then (reg, none)
    else (reg, some (RegErr.conflict sig.name))
  | none => ((sig.name, sig, callable) :: reg, none)

/-! ## The workflow graph

`ect.core.graph` is not among the shipped sources (the CLI only calls
`Graph.load` and `graph.invoke`); the graph model, its load-time validation
and its invocation algorithm are modelled from the specification (§3, §4.4,
§4.5, §6). -/

/-- A binding of a step input port: a literal value, a graph-level input
name, or a reference `step.output` to a predecessor step's output port. -/
inductive Binding where
  | lit (v : PyVal)
  | graphInput (name : String)
  | stepOutput (step : String) (port : String)
deriving DecidableEq

/-- A step of a graph definition: name, operation reference (by registry
name), per-input bindings. -/
structure StepDef where
  name : String
  op : String
  inputs : List (String × Binding)
deriving DecidableEq

/-- A graph definition: declared graph-level inputs (name, optional
default), declared graph-level outputs (name, referenced step, referenced
port), and the ordered list of steps. -/
structure GraphDef where
  inputs : List (String × Option PyVal)
  outputs : List (String × String × String)
  steps : List StepDef

/-- An operation usable from a graph step: its declared output port names
and the computation run at dispatch (a total function from the resolved
input assignment and the queried output port to a value). -/
structure GraphOp where
  outputs : List String
  run : List (String × PyVal) → String → PyVal

/-- The registry surface the graph module consumes: operation name to
operation. -/
def GraphOpRegistry : Type := List (String × GraphOp)

/-- Lookup in the graph-operation registry. -/
def gregLookup (reg : GraphOpRegistry) (name : String) : Option GraphOp :=
  match reg with
  | [] => none
  | (n, op) :: rest => if n = name then some op else gregLookup rest name

/-- Position of the step with the given name (first match). -/
def stepIndex (steps : List StepDef) (s : String) : Option Nat :=
  match steps with
  | [] => none
  | st :: rest =>
    if st.name = s then some 0 else (stepIndex rest s).map (fun i => i + 1)

/-- The positions of the steps whose outputs feed step `j`: an input bound
to `step.output` creates a dependency edge from that step to the one
declaring the input. -/
def depsOf (g : GraphDef) (j : Nat) : List Nat :=
  match g.steps.get? j with
  | none => []
  | some st =>
    st.inputs.filterMap (fun pb =>
      match pb.2 with
      | Binding.stepOutput s _ => stepIndex g.steps s
      | _ => none)

/-- The dependency relation: step `i` must execute before step `j`. -/
def dep (g : GraphDef) (i j : Nat) : Prop := i ∈ depsOf g j

/-- Acyclicity of the step dependency relation: no step transitively
depends on itself. -/
def Acyclic (g : GraphDef) : Prop :=
  ∀ i, ¬ Relation.TransGen (dep g) i i

/-- Is step `j` ready: are all of its dependencies already emitted? -/
def readyB (g : GraphDef) (done : List Nat) (j : Nat) : Bool :=
  (depsOf g j).all (fun d => done.contains d)

/-- One-pass scheduler loop: repeatedly emit the first (in declaration
order) remaining step whose dependencies are all emitted — the deterministic
topological order of §4.5 with ties broken by declaration order.  The emitted
steps are accumulated most-recent-first. -/
def kahnAux (g : GraphDef) : Nat → List Nat → List Nat → List Nat
  | 0, doneRev, _ => doneRev
  | fuel + 1, doneRev, rem =>
    match rem.find? (readyB g doneRev) with
    | none => doneRev
    | some j => kahnAux g fuel (j :: doneRev) (rem.erase j)

/-- The execution schedule of a graph: all steps when the dependency
relation is acyclic, a proper prefix otherwise. -/
def schedule (g : GraphDef) : List Nat :=
  (kahnAux g g.steps.length [] (List.range g.steps.length)).reverse

/-- Load-time validation failures (§4.4): unknown operation reference,
reference to a nonexistent step, port or graph input, or a dependency
cycle. -/
inductive GraphFormatError where
  | unknownOp (step : String) (op : String)
  | badStepRef (inStep : String) (target : String)
  | badPortRef (inStep : String) (target : String) (port : String)
  | badGraphInputRef (inStep : String) (input : String)
  | badOutputRef (output : String)
  | cycle (unscheduled : List Nat)
  | malformed (source : String)
deriving DecidableEq

/-- Does this binding of step `st` hold an invalid reference? -/
def bindingBadRef (reg : GraphOpRegistry) (g : GraphDef) (st : StepDef)
    (b : Binding) : Option GraphFormatError :=
  match b with
  | Binding.lit _ => none
  | Binding.graphInput nm =>
    if (g.inputs.map (fun i => i.1)).contains nm then none
    else some (GraphFormatError.badGraphInputRef st.name nm)
  | Binding.stepOutput s p =>
    match stepIndex g.steps s with
    | none => some (GraphFormatError.badStepRef st.name s)
    | some i =>
      match g.steps.get? i with
      | none => some (GraphFormatError.badStepRef st.name s)
      | some st2 =>
        match gregLookup reg st2.op with
        | none => none
        | some op =>
          if op.outputs.contains p then none
          else some (GraphFormatError.badPortRef st.name s p)

/-- First invalid reference of the definition, scanning step bindings then
graph-level outputs. -/
def firstBadRef (reg : GraphOpRegistry) (g : GraphDef) : Option GraphFormatError :=
  match g.steps.findSome? (fun st =>
      st.inputs.findSome? (fun pb => bindingBadRef reg g st pb.2)) with
  | some e => some e
  | none =>
    g.outputs.findSome? (fun o =>
      match stepIndex g.steps o.2.1 with
      | none => some (GraphFormatError.badOutputRef o.1)
      | some i =>
        match g.steps.get? i with
        | none => some (GraphFormatError.badOutputRef o.1)
        | some st2 =>
          match gregLookup reg st2.op with
          | none => none
          | some op =>
            if op.outputs.contains o.2.2 then none
            else some (GraphFormatError.badOutputRef o.1))

/-- Modelled from the spec: `Graph.load` — parse is abstracted away (the
definition is already structured); validation rejects, with a
`GraphFormatError` identifying the offender, any reference to an unknown
operation, any reference to a nonexistent step/port/graph input, and any
dependency cycle (detected by the scheduler covering fewer than all steps).
Loading runs no step: it returns either the validated definition or an
error. -/
def graphLoad (reg : GraphOpRegistry) (g : GraphDef) :
    Except GraphFormatError GraphDef :=
  match g.steps.find? (fun st => (gregLookup reg st.op).isNone) with
  | some st => Except.error (GraphFormatError.unknownOp st.name st.op)
  | none =>
    match firstBadRef reg g with
    | some e => Except.error e
    | none =>
      let sched := schedule g
      if sched.length = g.steps.length then Except.ok g
      else
        Except.error (GraphFormatError.cycle
          ((List.range g.steps.length).filter (fun i => ¬ sched.contains i)))

/-- Resolve the value of a declared graph-level input: the externally bound
value if present, else the declared default. -/
def resolveGraphInput (g : GraphDef) (ext : String → Option PyVal)
    (nm : String) : Option PyVal :=
  match g.inputs.find? (fun i => i.1 = nm) with
  | none => none
  | some (_, dflt) =>
    match ext nm with
    | some v => some v
    | none => dflt

/-- Lookup of a step's computed output valuation. -/
def outsLookup (outs : List (Nat × (String → PyVal))) (i : Nat) :
    Option (String → PyVal) :=
  match outs with
  | [] => none
  | (k, f) :: rest => if k = i then some f else outsLookup rest i

/-- Resolve one input binding during invocation (§4.5 step 2): a literal, the
current value of a graph-level input, or the already-produced value of a
predecessor's output port. -/
def resolveBinding (g : GraphDef) (ext : String → Option PyVal)
    (outs : List (Nat × (String → PyVal))) : Binding → Option PyVal
  | Binding.lit v => some v
  | Binding.graphInput nm => resolveGraphInput g ext nm
  | Binding.stepOutput s p =>
    match stepIndex g.steps s with
    | none => none
    | some i =>
      match outsLookup outs i with
      | none => none
      | some f => some (f p)

/-- Resolve every input of a step, in declaration order. -/
def resolveInputs (g : GraphDef) (ext : String → Option PyVal)
    (outs : List (Nat × (String → PyVal))) :
    List (String × Binding) → Option (List (String × PyVal))
  | [] => some []
  | (nm, b) :: rest =>
    match resolveBinding g ext outs b with
    | none => none
    | some v =>
      match resolveInputs g ext outs rest with
      | none => none
      | some vs => some ((nm, v) :: vs)

/-- Execute the scheduled steps in order, storing each step's output
valuation; `none` models an invocation-time failure (unresolvable input,
unknown operation). -/
def execSteps (g : GraphDef) (reg : GraphOpRegistry)
    (ext : String → Option PyVal) :
    List Nat → List (Nat × (String → PyVal)) →
    Option (List (Nat × (String → PyVal)))
  | [], outs => some outs
  | j :: rest, outs =>
    match g.steps.get? j with
    | none => none
    | some st =>
      match gregLookup reg st.op with
      | none => none
      | some op =>
        match resolveInputs g ext outs st.inputs with
        | none => none
        | some ins => execSteps g reg ext rest ((j, op.run ins) :: outs)

/-- Resolve the declared graph-level outputs from the step outputs (§4.5
step 3). -/
def resolveOutputs (g : GraphDef) (outs : List (Nat × (String → PyVal))) :
    List (String × String × String) → Option (List (String × PyVal))
  | [] => some []
  | (onm, s, p) :: rest =>
    match stepIndex g.steps s with
    | none => none
    | some i =>
      match outsLookup outs i with
      | none => none
      | some f =>
        match resolveOutputs g outs rest with
        | none => none
        | some vs => some ((onm, f p) :: vs)

/-- Modelled from the spec: `graph.invoke` — compute the schedule; a
schedule covering fewer than all steps means a cycle and fails; otherwise
execute the steps in schedule order and resolve every declared graph-level
output.  The function is total, so a `some` result is a terminating,
successful invocation. -/
def graphInvoke (g : GraphDef) (reg : GraphOpRegistry)
    (ext : String → Option PyVal) : Option (List (String × PyVal)) :=
  let sched := schedule g
  if sched.length = g.steps.length then
    match execSteps g reg ext sched [] with
    | none => none
    | some outs => resolveOutputs g outs g.outputs
  else none

/-! ## The CLI `run` command (`src/ect/core/cli.py`)

`Run.execute` and its two helpers `Run._invoke_operation` and
`Run._invoke_graph` are embedded directly from the source.  External
collaborators are parameters: the filesystem (`isFile`), the Python
environment seen by `eval` (`env`), the operation registry lookup (`ops`,
whose callables are opaque — only the fact of calling one is recorded), and
the parsed content of graph files (`gsrc`).  Side effects that the claims
talk about (loading a graph, creating a `ConsoleMonitor`, calling an
operation, invoking a graph) are recorded as an event trace. -/

/-- The messages the `run` command returns (the source renders them through
`%`-formatting; the payload data is what matters here). -/
inductive CliMsg where
  | requiresOp
  | badKeyword (kw : String)
  | graphArgs (args : List PyVal)
  | unknownOp (name : String)
deriving DecidableEq

/-- Observable side effects of the `run` command. -/
inductive CliEvent where
  | loadedGraph (file : String)
  | createdConsoleMonitor
  | calledOp (name : String)
  | invokedGraph (file : String)
deriving DecidableEq

/-- Exceptions that escape the `run` command uncaught. -/
inductive CliErr where
  | uncaught (e : PyErr)
  | graphFormat (e : GraphFormatError)
  | invokeFailed
deriving DecidableEq

/-- Result of the argument-preprocessing loop of `Run.execute` (lines
125-143): an early `return 2` on a malformed keyword, an uncaught conversion
exception, or the collected positional and keyword arguments. -/
inductive ArgsResult where
  | earlyReturn (status : Nat) (msg : CliMsg)
  | crash (e : PyErr)
  | ok (pos : List PyVal) (kws : List (String × PyVal))
deriving DecidableEq

/-- `OrderedDict` assignment: a repeated key keeps its position and takes the
new value. -/
def upsert (kws : List (String × PyVal)) (k : String) (v : PyVal) :
    List (String × PyVal) :=
  match kws with
  | [] => [(k, v)]
  | (k0, v0) :: rest =>
    if k0 = k then (k0, v) :: rest else (k0, v0) :: upsert rest k v

/-- The argument-preprocessing loop of `Run.execute`: split each raw
argument at the first `=`; a malformed keyword returns status 2 at once;
otherwise the value part is converted by `convertArg` (the `eval` fallback)
and collected positionally or as a keyword. -/
def convertArgsAux (env : String → Option PyVal) :
    List String → List PyVal → List (String × PyVal) → ArgsResult
  | [], pos, kws => ArgsResult.ok pos kws
  | raw :: rest, pos, kws =>
    match splitOnceChar (Char.ofNat 61) raw with
    | some (kw, argstr) =>
      if isPyIdent kw then
        match convertArg env argstr with
        | Except.error e => ArgsResult.crash e
        | Except.ok v => convertArgsAux env rest pos (upsert kws kw v)
      else ArgsResult.earlyReturn 2 (CliMsg.badKeyword kw)
    | none =>
      match convertArg env raw with
      | Except.error e => ArgsResult.crash e
      | Except.ok v => convertArgsAux env rest (pos ++ [v]) kws

/-- Collect the converted operation arguments of a `run` invocation. -/
def convertArgs (env : String → Option PyVal) (raws : List String) : ArgsResult :=
  convertArgsAux env raws [] []

/-- `Run._invoke_operation` (lines 150-163): an unknown operation name
returns `(1, message naming it)` without further action; a known one creates
the console monitor when requested and calls the operation. -/
def run_invoke_operation (ops : String → Option Unit) (op_name : String)
    (op_monitor : Bool) : Option (Nat × CliMsg) × List CliEvent :=
  match ops op_name with
  | none => (some (1, CliMsg.unknownOp op_name), [])
  | some _ =>
    (none,
      (if op_monitor then [CliEvent.createdConsoleMonitor] else []) ++
        [CliEvent.calledOp op_name])

/-- First-match keyword lookup. -/
def lookupKw (kws : List (String × PyVal)) (nm : String) : Option PyVal :=
  match kws with
  | [] => none
  | (k, v) :: rest => if k = nm then some v else lookupKw rest nm

/-- The keyword-binding loop of `Run._invoke_graph` (lines 174-176): a
keyword naming a declared graph-level input sets that input's value; every
other keyword is skipped. -/
def bindGraphKwargs (inputNames : List String) :
    List (String × PyVal) → List (String × PyVal)
  | [] => []
  | (nm, v) :: rest =>
    if inputNames.contains nm then (nm, v) :: bindGraphKwargs inputNames rest
    else bindGraphKwargs inputNames rest

/-- `Run._invoke_graph` (lines 166-186): positional arguments are rejected
with status 1 before anything else happens; then the graph is loaded (a
load failure propagates uncaught), keyword arguments naming declared inputs
are bound, and the graph is invoked. -/
def run_invoke_graph (reg : GraphOpRegistry) (gsrc : String → Option GraphDef)
    (graph_file : String) (op_monitor : Bool)
    (op_args : List PyVal) (op_kwargs : List (String × PyVal)) :
    Except CliErr (Option (Nat × CliMsg) × List CliEvent) :=
  if op_args.isEmpty then
    match gsrc graph_file with
    | none => Except.error (CliErr.graphFormat (GraphFormatError.malformed graph_file))
    | some gd =>
      match graphLoad reg gd with
      | Except.error e => Except.error (CliErr.graphFormat e)
      | Except.ok g =>
        let bound := bindGraphKwargs (g.inputs.map (fun i => i.1)) op_kwargs
        match graphInvoke g reg (fun nm => lookupKw bound nm) with
        | none => Except.error CliErr.invokeFailed
        | some _ =>
          Except.ok (none,
            [CliEvent.loadedGraph graph_file] ++
              (if op_monitor then [CliEvent.createdConsoleMonitor] else []) ++
              [CliEvent.invokedGraph graph_file])
  else Except.ok (some (1, CliMsg.graphArgs op_args), [])

/-- Does the string end in the given suffix (structural model of
`str.endswith`)? -/
def strEndsWith (s suffix : String) : Bool :=
  s.toList.reverse.take suffix.toList.length == suffix.toList.reverse

/-- `Run.execute` (lines 119-148): require an operation name, preprocess the
raw arguments, and dispatch to the graph path when the name is an existing
`.json` file, to the operation path otherwise. -/
def Run_execute (isFile : String → Bool) (env : String → Option PyVal)
    (ops : String → Option Unit) (reg : GraphOpRegistry)
    (gsrc : String → Option GraphDef)
    (op_name : String) (op_monitor : Bool) (op_args_raw : List String) :
    Except CliErr (Option (Nat × CliMsg) × List CliEvent) :=
  if op_name = "" then Except.ok (some (2, CliMsg.requiresOp), [])
  else
    let is_graph_file := strEndsWith op_name (".json") && isFile op_name
    match convertArgs env op_args_raw with
    | ArgsResult.earlyReturn st m => Except.ok (some (st, m), [])
    | ArgsResult.crash e => Except.error (CliErr.uncaught e)
    | ArgsResult.ok pos kws =>
      if is_graph_file then
        run_invoke_graph reg gsrc op_name op_monitor pos kws
      else
        Except.ok (run_invoke_operation ops op_name op_monitor)

/-- Modelled from the spec (§4.2): keyword arguments are matched to the
declared `InputSpec` names; an unmatched keyword name fails dispatch with
`ArgumentError` before the operation body runs. -/
def checkKwargs (inputNames : List String) :
    List (String × PyVal) → Except DispatchErr Unit
  | [] => Except.ok ()
  | (nm, _) :: rest =>
    if inputNames.contains nm then checkKwargs inputNames rest
    else Except.error (DispatchErr.argumentError nm)

/-! ## Predicates used by the theorems -/

/-- Strengthened scheduler invariant: each emitted step (most recent first)
has all of its transitive dependencies among the steps emitted before it. -/
def TClosed (g : GraphDef) : List Nat → Prop
  | [] => True
  | j :: rest => (∀ a, Relation.TransGen (dep g) a j → a ∈ rest) ∧ TClosed g rest

/-- A step list is dependency-sequenced from `done`: each step's direct
dependencies lie in `done` or earlier in the list. -/
def DepsSeq (g : GraphDef) : List Nat → List Nat → Prop
  | [], _ => True
  | j :: rest, done => (∀ d ∈ depsOf g j, d ∈ done) ∧ DepsSeq g rest (j :: done)

/-- Does a step-output binding reference an existing step? -/
def bindingResolvesB (g : GraphDef) : Binding → Bool
  | Binding.stepOutput s _ => (stepIndex g.steps s).isSome
  | _ => true

/-- Does a graph-input binding have a resolvable value (externally bound or
defaulted)? -/
def bindingHasValueB (g : GraphDef) (ext : String → Option PyVal) : Binding → Bool
  | Binding.graphInput nm => (resolveGraphInput g ext nm).isSome
  | _ => true

/-- Structural well-formedness of a graph against a registry: every step's
operation is registered, every step-output binding references an existing
step, and every declared graph-level output references an existing step. -/
def WfGraph (reg : GraphOpRegistry) (g : GraphDef) : Prop :=
  (∀ st ∈ g.steps, (gregLookup reg st.op).isSome = true) ∧
  (∀ st ∈ g.steps, ∀ pb ∈ st.inputs, bindingResolvesB g pb.2 = true) ∧
  (∀ o ∈ g.outputs, (stepIndex g.steps o.2.1).isSome = true)

/-- Every input port bound to a graph-level input is resolvable under the
external binding `ext` (bound or defaulted). -/
def ResolvableInputs (g : GraphDef) (ext : String → Option PyVal) : Prop :=
  ∀ st ∈ g.steps, ∀ pb ∈ st.inputs, bindingHasValueB g ext pb.2 = true

/-- The dependency relation restricted to valid step positions. -/
def depF (g : GraphDef) (a b : Fin g.steps.length) : Prop := dep g a.val b.val

/-! ## Concrete objects used by witnesses and counterexamples -/

/-- The empty evaluation environment (no bound names). -/
def envNone : String → Option PyVal := fun _ => none

/-- A filesystem on which every path exists. -/
def fileAlways : String → Bool := fun _ => true

/-- A filesystem on which no path exists. -/
def fileNever : String → Bool := fun _ => false

/-- An empty CLI operation registry. -/
def opsNone : String → Option Unit := fun _ => none

/-- No graph sources. -/
def gsrcNone : String → Option GraphDef := fun _ => none

/-- The three-row table of the specification's example, with a default
(unique) row index. -/
def dfPop : DataFrame :=
  { index := [0, 1, 2], cols := [("population", [3, 1, 2])],
    geo := false, crs := none }

/-- A frame with a duplicated row index label, as pandas permits. -/
def dfDup : DataFrame :=
  { index := [7, 7], cols := [("a", [1, 2])], geo := false, crs := none }

/-- A geo-frame with a crs. -/
def dfGeo : DataFrame :=
  { index := [0, 1], cols := [("a", [5, 3])], geo := true, crs := some "EPSG4326" }

/-- Operation producing value 5 on its output port. -/
def opA : GraphOp := { outputs := ["x"], run := fun _ _ => PyVal.int 5 }

/-- Operation forwarding its input port `y`. -/
def opB : GraphOp :=
  { outputs := ["z"],
    run := fun ins p =>
      if p = "z" then (lookupKw ins "y").getD (PyVal.int 0) else PyVal.int 0 }

/-- A registry holding the two operations above. -/
def greg2 : GraphOpRegistry := [("opA", opA), ("opB", opB)]

/-- The specification's two-step example graph: step `A` with no inputs and
output `x`; step `B` with input `y` bound to `A.x` and output `z`; the graph
output `z` reads `B.z`. -/
def gAB : GraphDef :=
  { inputs := [], outputs := [("z", "B", "z")],
    steps := [{ name := "A", op := "opA", inputs := [] },
              { name := "B", op := "opB",
                inputs := [("y", Binding.stepOutput "A" "x")] }] }

/-- A two-step graph whose bindings form a dependency cycle. -/
def gCyc : GraphDef :=
  { inputs := [], outputs := [],
    steps := [{ name := "A", op := "opA",
                inputs := [("y", Binding.stepOutput "B" "z")] },
              { name := "B", op := "opB",
                inputs := [("y", Binding.stepOutput "A" "x")] }] }

/-- A graph with one defaulted input `a`, no steps and no outputs. -/
def gTriv : GraphDef :=
  { inputs := [("a", some (PyVal.int 0))], outputs := [], steps := [] }

/-- A signature used by the registry witness. -/
def sigF : OpSignature :=
  { name := "f", version := "1.0", tags := ["filter"],
    inputs := [{ name := "df", valueSetSource := none },
               { name := "var", valueSetSource := some "df" }],
    outputs := ["return"] }

/-- A conflicting signature under the same name. -/
def sigF2 : OpSignature :=
  { name := "f", version := "2.0", tags := [],
    inputs := [], outputs := ["return"] }

/-- A registry already holding `sigF` under its name. -/
def reg1 : Registry := [("f", sigF, 0)]

/-! ## Theorems -/

/-- C4: for an input declaring `value_set_source` (the `var` input of
`data_frame_min`/`data_frame_max`, whose value set derives from the columns
of `df`), dispatch rejects with `ValidationError` every bound value absent
from the referenced domain — before, and independently of, the operation
body — and accepts every value present in it, invoking the body. -/
theorem dispatch_value_set_source_strict (df : DataFrame) (var : String) :
    ((colNames df).contains var = false →
      ∀ body, dispatchValueSetSource df var body =
        Except.error DispatchErr.validationError) ∧
    ((colNames df).contains var = true →
      dispatchValueSetSource df var data_frame_min =
        Except.ok (data_frame_min df var)) ∧
    ((colNames df).contains var = true →
      dispatchValueSetSource df var data_frame_max =
        Except.ok (data_frame_max df var)) := by
  refine ⟨fun h body => ?_, fun h => ?_, fun h => ?_⟩ <;>
    simp [dispatchValueSetSource, h] <;> simpa using h

/-- Witness for C4 at a concrete frame: the absent column name `missing` is
rejected with `ValidationError` (for an arbitrary body, here
`data_frame_min`), the present column name `population` is accepted and the
body runs. -/
theorem dispatch_value_set_source_strict_witness :
    ((colNames dfPop).contains "missing" = false ∧
      dispatchValueSetSource dfPop "missing" data_frame_min =
        Except.error DispatchErr.validationError) ∧
    ((colNames dfPop).contains "population" = true ∧
      dispatchValueSetSource dfPop "population" data_frame_min =
        Except.ok (data_frame_min dfPop "population")) :=
  ⟨⟨by decide,
    (dispatch_value_set_source_strict dfPop "missing").1 (by decide) data_frame_min⟩,
   ⟨by decide,
    (dispatch_value_set_source_strict dfPop "population").2.1 (by decide)⟩⟩

/-- C6: registering a name already registered with an identical signature is
a no-op returning the unchanged registry; registering an existing name with
a different signature fails with a conflict error, also returning the
unchanged registry. -/
theorem register_idempotent_conflict (reg : Registry) (sig sig0 : OpSignature)
    (c c0 : Nat) (hlk : regLookup reg sig.name = some (sig0, c0)) :
    (sig0 = sig → registerOp reg sig c = (reg, none)) ∧
    (sig0 ≠ sig → registerOp reg sig c = (reg, some (RegErr.conflict sig.name))) := by
  constructor <;> intro h <;> simp [registerOp, hlk, h]

/-- Witness for C6 on a one-entry registry: re-registering `sigF` is a no-op
and registering the conflicting `sigF2` (same name, different signature)
fails, in both cases leaving the registry unchanged. -/
theorem register_idempotent_conflict_witness :
    registerOp reg1 sigF 7 = (reg1, none) ∧
    registerOp reg1 sigF2 7 = (reg1, some (RegErr.conflict "f")) := by
  constructor
  · exact (register_idempotent_conflict reg1 sigF sigF 7 0 (by decide)).1 rfl
  · exact (register_idempotent_conflict reg1 sigF2 sigF 7 0 (by decide)).2 (by decide)

theorem bindGraphKwargs_filter (names : List String) (kws : List (String × PyVal)) :
    bindGraphKwargs names (kws.filter (fun kv => decide (kv.1 ∈ names))) =
      bindGraphKwargs names kws := by
  induction kws with
  | nil => rfl
  | cons kv rest ih =>
    by_cases hm : kv.1 ∈ names
    · simp [List.filter_cons, bindGraphKwargs, hm, ih]
    · simp [List.filter_cons, bindGraphKwargs, hm, ih]

theorem graphLoad_ok_eq (reg : GraphOpRegistry) (gd g : GraphDef)
    (h : graphLoad reg gd = Except.ok g) : g = gd := by
  unfold graphLoad at h
  cases h1 : gd.steps.find? (fun st => (gregLookup reg st.op).isNone) with
  | some st => rw [h1] at h; cases h
  | none =>
    rw [h1] at h
    cases h2 : firstBadRef reg gd with
    | some e => rw [h2] at h; cases h
    | none =>
      rw [h2] at h
      by_cases h3 : (schedule gd).length = gd.steps.length
      · rw [if_pos h3] at h
        exact (Except.ok.inj h).symm
      · rw [if_neg h3] at h; cases h

/-- C2 (amended): operation dispatch (modelled from the spec, the dispatch
code not being among the shipped sources) rejects any keyword whose name
matches no declared input; but the CLI graph path of the shipped source
(`Run._invoke_graph`, lines 174-176) silently ignores keywords matching no
declared graph-level input — the invocation behaves exactly as if the
unmatched keywords were absent, and no `ArgumentError` arises from them. -/
theorem kwargs_dispatch_vs_graph :
    (∀ (inputNames : List String) (kws : List (String × PyVal)),
      checkKwargs inputNames kws = Except.ok () ↔
        ∀ kv ∈ kws, kv.1 ∈ inputNames) ∧
    (∀ (reg : GraphOpRegistry) (gd : GraphDef) (file : String) (mon : Bool)
        (op_args : List PyVal) (kws : List (String × PyVal)),
      run_invoke_graph reg (fun _ => some gd) file mon op_args kws =
        run_invoke_graph reg (fun _ => some gd) file mon op_args
          (kws.filter (fun kv =>
            decide (kv.1 ∈ gd.inputs.map (fun i => i.1))))) := by
  constructor
  · intro inputNames kws
    induction kws with
    | nil => simp [checkKwargs]
    | cons kv rest ih =>
      by_cases hm : kv.1 ∈ inputNames
      · simp [checkKwargs, hm, ih]
      · simp [checkKwargs, hm]
  · intro reg gd file mon op_args kws
    have hbind := bindGraphKwargs_filter (gd.inputs.map (fun i => i.1)) kws
    unfold run_invoke_graph
    cases he : op_args.isEmpty
    · rfl
    · simp only [if_pos]
      cases hload : graphLoad reg gd with
      | error e => rfl
      | ok g =>
        have hg : g = gd := graphLoad_ok_eq reg gd g hload
        subst hg
        dsimp only
        rw [hbind]

/-- C2 counterexample: on a graph declaring only the input `a`, invoking
through the CLI with the unmatched keyword `b` succeeds (status `none`, the
graph is loaded and invoked) instead of failing with `ArgumentError`. -/
theorem kwargs_graph_ignored_counterexample :
    run_invoke_graph greg2 (fun _ => some gTriv) "g.json" false []
        [("b", PyVal.int 1)] =
      Except.ok (none, [CliEvent.loadedGraph "g.json",
        CliEvent.invokedGraph "g.json"]) ∧
    (gTriv.inputs.map (fun i => i.1)).contains "b" = false := by
  constructor
  · rfl
  · decide

theorem isPyIdent_false_of_bracketed {s : String}
    (h : isBracketed s.toList = true) : isPyIdent s = false := by
  unfold isBracketed at h
  unfold isPyIdent
  cases hcs : s.toList with
  | nil => rw [hcs] at h
  | cons c cs =>
    rw [hcs] at h
    simp only [Bool.and_eq_true, decide_eq_true_eq, List.head?_cons,
      Option.some.injEq] at h
    have hc : c = Char.ofNat 91 := h.1.1
    subst hc
    simp [isAlphaChar]

/-- C3 (amended): on every argument the fixed literal grammar recognises
(numeric, boolean, quoted string, bracketed list of literals), the CLI
conversion agrees with the literal parser, for any evaluation environment;
but the conversion is Python `eval`, not the literal parser: it also
computes non-literal expressions, e.g. the argument `1+1` converts to the
number 2 where the literal parser keeps the string. -/
theorem convertArg_eval_vs_literal_grammar :
    (∀ (env : String → Option PyVal) (s : String) (v : PyVal),
      specRecognize s = some v → convertArg env s = Except.ok v) ∧
    (convertArg envNone "1+1" = Except.ok (PyVal.int 2) ∧
      specLiteralParse "1+1" = PyVal.str "1+1") := by
  constructor
  · intro env s v h
    unfold specRecognize at h
    cases hlit : litAtom s with
    | some w =>
      rw [hlit] at h
      have hv : w.toVal = v := by simpa using h
      unfold convertArg pyParse parseAtom
      rw [hlit]
      simp [pyEval, evalAtom, hv]
    | none =>
      rw [hlit] at h
      by_cases hb : isBracketed s.toList = true
      · rw [if_pos hb] at h
        cases hm : (listElems ((s.toList.drop 1).dropLast)).mapM litAtom with
        | none => rw [hm] at h; simp at h
        | some ws =>
          rw [hm] at h
          have hv : PyVal.list ws = v := by simpa using h
          unfold convertArg pyParse parseAtom
          rw [hlit, if_neg (by simp [isPyIdent_false_of_bracketed hb]),
            if_pos hb, hm]
          simp [pyEval, hv]
      · rw [if_neg hb] at h; cases h
  · exact ⟨by decide, by decide⟩

/-- C3 counterexample: the argument text `1+1` is not a literal of the fixed
grammar (the spec's literal parser keeps it as the plain string), yet the
CLI conversion evaluates it as code and produces the number 2. -/
theorem convertArg_evaluates_code_counterexample :
    convertArg envNone "1+1" = Except.ok (PyVal.int 2) ∧
    specRecognize "1+1" = none ∧
    PyVal.int 2 ≠ PyVal.str "1+1" := by
  refine ⟨by decide, by decide, by decide⟩

/-- Witness for C3's agreement half at a concrete literal: `12` is
recognised by the literal grammar and the conversion returns the same
number. -/
theorem convertArg_literal_agreement_witness :
    specRecognize "12" = some (PyVal.int 12) ∧
    convertArg envNone "12" = Except.ok (PyVal.int 12) :=
  ⟨by decide, convertArg_eval_vs_literal_grammar.1 envNone "12" (PyVal.int 12) (by decide)⟩

/-- C9 (amended): for a `run` invocation naming an existing `.json` graph
file, whenever the raw arguments preprocess cleanly (keyword parts are valid
identifiers and no conversion raises an uncaught error) and at least one
positional argument is present, the command returns status 1 — the rejection
happens inside `Run._invoke_graph` before the graph is loaded and before any
step is invoked (the event trace is empty). -/
theorem run_graph_positional_rejected (isFile : String → Bool)
    (env : String → Option PyVal) (ops : String → Option Unit)
    (reg : GraphOpRegistry) (gsrc : String → Option GraphDef)
    (op_name : String) (mon : Bool) (raws : List String)
    (pos : List PyVal) (kws : List (String × PyVal))
    (hjson : strEndsWith op_name (".json") = true)
    (hfile : isFile op_name = true)
    (hconv : convertArgs env raws = ArgsResult.ok pos kws)
    (hpos : pos ≠ []) :
    Run_execute isFile env ops reg gsrc op_name mon raws =
      Except.ok (some (1, CliMsg.graphArgs pos), []) := by
  have hne : op_name ≠ "" := by
    intro he
    rw [he] at hjson
    exact absurd hjson (by decide)
  unfold Run_execute
  rw [if_neg hne, hconv]
  simp only [hjson, hfile, Bool.and_self, if_true]
  unfold run_invoke_graph
  have hempty : pos.isEmpty = false := by
    cases pos with
    | nil => exact absurd rfl hpos
    | cons a l => rfl
  rw [hempty]
  rfl

/-- Witness for C9 at a concrete invocation: `run g.json pos` (one positional
argument) returns status 1 with the graph-arguments message and an empty
event trace. -/
theorem run_graph_positional_rejected_witness :
    strEndsWith "g.json" (".json") = true ∧
    fileAlways "g.json" = true ∧
    convertArgs envNone ["pos"] = ArgsResult.ok [PyVal.str "pos"] [] ∧
    ([PyVal.str "pos"] : List PyVal) ≠ [] ∧
    Run_execute fileAlways envNone opsNone [] gsrcNone "g.json" false ["pos"] =
      Except.ok (some (1, CliMsg.graphArgs [PyVal.str "pos"]), []) :=
  ⟨by decide, by decide, by decide, by decide,
    run_graph_positional_rejected fileAlways envNone opsNone [] gsrcNone
      "g.json" false ["pos"] [PyVal.str "pos"] [] (by decide) (by decide)
      (by decide) (by decide)⟩

/-- C9 counterexample: on `run g.json 1a=2 p` — a graph file with a
positional argument `p` present — the command returns status 2 (the
malformed keyword `1a` is rejected first), not status 1 as claimed. -/
theorem run_graph_positional_status2_counterexample :
    Run_execute fileAlways envNone opsNone [] gsrcNone "g.json" false
        ["1a=2", "p"] =
      Except.ok (some (2, CliMsg.badKeyword "1a"), []) ∧
    splitOnceChar (Char.ofNat 61) "p" = none ∧
    (2 : Nat) ≠ 1 := by
  refine ⟨by rfl, by decide, by decide⟩

/-- C10 (amended): for a `run` invocation whose nonempty operation name is
not an existing `.json` graph file and is not found in the operation
registry, whenever the raw arguments preprocess cleanly, the command returns
status 1 with a message naming the unknown operation, raising no exception,
invoking no callable and creating no monitor (the event trace is empty). -/
theorem run_unknown_operation (isFile : String → Bool)
    (env : String → Option PyVal) (ops : String → Option Unit)
    (reg : GraphOpRegistry) (gsrc : String → Option GraphDef)
    (op_name : String) (mon : Bool) (raws : List String)
    (pos : List PyVal) (kws : List (String × PyVal))
    (hname : op_name ≠ "")
    (hngraph : (strEndsWith op_name (".json") && isFile op_name) = false)
    (hconv : convertArgs env raws = ArgsResult.ok pos kws)
    (hop : ops op_name = none) :
    Run_execute isFile env ops reg gsrc op_name mon raws =
      Except.ok (some (1, CliMsg.unknownOp op_name), []) := by
  unfold Run_execute
  rw [if_neg hname, hconv]
  simp only [hngraph]
  unfold run_invoke_operation
  rw [hop]
  rfl

/-- Witness for C10 at a concrete invocation: `run nop x=2` with an empty
registry returns status 1 naming `nop`, with an empty event trace. -/
theorem run_unknown_operation_witness :
    ("nop" : String) ≠ "" ∧
    (strEndsWith "nop" (".json") && fileNever "nop") = false ∧
    convertArgs envNone ["x=2"] = ArgsResult.ok [] [("x", PyVal.int 2)] ∧
    opsNone "nop" = none ∧
    Run_execute fileNever envNone opsNone [] gsrcNone "nop" false ["x=2"] =
      Except.ok (some (1, CliMsg.unknownOp "nop"), []) :=
  ⟨by decide, by decide, by decide, by decide,
    run_unknown_operation fileNever envNone opsNone [] gsrcNone "nop" false
      ["x=2"] [] [("x", PyVal.int 2)] (by decide) (by decide) (by decide)
      (by decide)⟩

/-- C10 counterexample: on `run nop 1a=2` — the name `nop` is not a graph
file and is absent from the registry — the command returns status 2 with the
malformed-keyword message, not status 1 with a message naming the unknown
operation. -/
theorem run_unknown_operation_status2_counterexample :
    Run_execute fileNever envNone opsNone [] gsrcNone "nop" false ["1a=2"] =
      Except.ok (some (2, CliMsg.badKeyword "1a"), []) ∧
    opsNone "nop" = none ∧
    (2 : Nat) ≠ 1 := by
  refine ⟨by rfl, by rfl, by decide⟩

theorem minVal_mem : ∀ (vs : List Int), vs ≠ [] → minVal vs ∈ vs
  | [], h => absurd rfl h
  | [v], _ => by simp [minVal]
  | v :: w :: rest, _ => by
    have ih := minVal_mem (w :: rest) (by simp)
    show min v (minVal (w :: rest)) ∈ v :: w :: rest
    rcases le_total v (minVal (w :: rest)) with h | h
    · rw [min_eq_left h]; exact List.mem_cons_self _ _
    · rw [min_eq_right h]; exact List.mem_cons_of_mem _ ih

theorem minVal_le : ∀ (vs : List Int), ∀ x ∈ vs, minVal vs ≤ x
  | [], x, hx => absurd hx (by simp)
  | [v], x, hx => by
    simp at hx
    simp [minVal, hx]
  | v :: w :: rest, x, hx => by
    show min v (minVal (w :: rest)) ≤ x
    rcases List.mem_cons.mp hx with rfl | hx2
    · exact min_le_left _ _
    · exact le_trans (min_le_right _ _) (minVal_le (w :: rest) x hx2)

theorem firstIdx_lt {a : Int} : ∀ {vs : List Int}, a ∈ vs → firstIdx a vs < vs.length := by
  intro vs
  induction vs with
  | nil => intro h; cases h
  | cons v rest ih =>
    intro h
    by_cases hv : v = a
    · simp [firstIdx, hv]
    · have hmem : a ∈ rest := by
        rcases List.mem_cons.mp h with h1 | h1
        · exact absurd h1.symm hv
        · exact h1
      have := ih hmem
      simp only [firstIdx, hv, if_false, List.length_cons]
      omega

theorem firstIdx_getD {a : Int} : ∀ {vs : List Int}, a ∈ vs →
    vs.getD (firstIdx a vs) 0 = a := by
  intro vs
  induction vs with
  | nil => intro h; cases h
  | cons v rest ih =>
    intro h
    by_cases hv : v = a
    · simp [firstIdx, hv]
    · have hmem : a ∈ rest := by
        rcases List.mem_cons.mp h with h1 | h1
        · exact absurd h1.symm hv
        · exact h1
      simp only [firstIdx, hv, if_false, List.getD_cons_succ]
      exact ih hmem

theorem firstIdx_earlier {a : Int} : ∀ {vs : List Int}, a ∈ vs →
    ∀ q, q < firstIdx a vs → vs.getD q 0 ≠ a := by
  intro vs
  induction vs with
  | nil => intro h; cases h
  | cons v rest ih =>
    intro h q hq
    by_cases hv : v = a
    · simp [firstIdx, hv] at hq
    · have hmem : a ∈ rest := by
        rcases List.mem_cons.mp h with h1 | h1
        · exact absurd h1.symm hv
        · exact h1
      simp only [firstIdx, hv, if_false] at hq
      cases q with
      | zero => simpa using hv
      | succ q2 =>
        simp only [List.getD_cons_succ]
        exact ih hmem q2 (by omega)

theorem getD_mem_of_lt {α : Type} (d : α) :
    ∀ (l : List α) (q : Nat), q < l.length → l.getD q d ∈ l := by
  intro l
  induction l with
  | nil => intro q hq; simp at hq
  | cons x r ih =>
    intro q hq
    cases q with
    | zero => simp
    | succ q2 =>
      simp only [List.getD_cons_succ]
      exact List.mem_cons_of_mem _ (ih q2 (by simpa using hq))

theorem filter_label_singleton :
    ∀ (l : List Nat), l.Nodup → ∀ p, p < l.length →
      l.filter (fun i => i = l.getD p 0) = [l.getD p 0] := by
  intro l
  induction l with
  | nil => intro _ p hp; simp at hp
  | cons x r ih =>
    intro hnd p hp
    obtain ⟨hnx, hnr⟩ := List.nodup_cons.mp hnd
    cases p with
    | zero =>
      simp only [List.getD_cons_zero, List.filter_cons, decide_True, if_pos rfl]
      have hrest : r.filter (fun i => i = x) = [] := by
        rw [List.filter_eq_nil_iff]
        intro b hb
        simp only [decide_eq_true_eq]
        intro hbx
        exact hnx (hbx ▸ hb)
      simp [hrest]
    | succ p2 =>
      have hp2 : p2 < r.length := by simpa using hp
      have hlbl : r.getD p2 0 ∈ r := getD_mem_of_lt 0 r p2 hp2
      have hx : ¬ (x = r.getD p2 0) := by
        intro he
        exact hnx (he ▸ hlbl)
      simp only [List.getD_cons_succ, List.filter_cons]
      rw [if_neg (by simpa using hx)]
      exact ih hnr p2 hp2

theorem selectByLabel_singleton :
    ∀ (index : List Nat) (vs : List Int) (p : Nat),
      index.Nodup → vs.length = index.length → p < index.length →
      selectByLabel index vs (index.getD p 0) = [vs.getD p 0] := by
  intro index
  induction index with
  | nil => intro vs p _ _ hp; simp at hp
  | cons x ir ih =>
    intro vs p hnd hlen hp
    obtain ⟨hnx, hnr⟩ := List.nodup_cons.mp hnd
    cases vs with
    | nil => simp at hlen
    | cons w wr =>
      have hlen2 : wr.length = ir.length := by simpa using hlen
      cases p with
      | zero =>
        simp only [List.getD_cons_zero]
        unfold selectByLabel
        simp only [List.zip_cons_cons, List.filter_cons, decide_True, if_pos rfl]
        have hrest : (ir.zip wr).filter (fun q => q.1 = x) = [] := by
          rw [List.filter_eq_nil_iff]
          intro b hb
          simp only [decide_eq_true_eq]
          intro hbx
          have := (List.of_mem_zip hb).1
          exact hnx (hbx ▸ this)
        simp [hrest]
      | succ p2 =>
        have hp2 : p2 < ir.length := by simpa using hp
        have hlbl : ir.getD p2 0 ∈ ir := getD_mem_of_lt 0 ir p2 hp2
        have hx : ¬ (x = ir.getD p2 0) := by
          intro he
          exact hnx (he ▸ hlbl)
        simp only [List.getD_cons_succ]
        unfold selectByLabel
        simp only [List.zip_cons_cons, List.filter_cons]
        rw [if_neg (by simpa using hx)]
        exact ih wr p2 hnr hlen2 hp2

theorem lookupCol_mem :
    ∀ (cols : List (String × List Int)) (var : String) (vs : List Int),
      lookupCol cols var = some vs → (var, vs) ∈ cols := by
  intro cols
  induction cols with
  | nil => intro var vs h; cases h
  | cons c rest ih =>
    intro var vs h
    unfold lookupCol at h
    by_cases hn : c.1 = var
    · rw [if_pos hn] at h
      have h2 : c.2 = vs := Option.some.inj h
      have h3 : (var, vs) = c := by rw [← hn, ← h2]
      rw [h3]
      exact List.mem_cons_self _ _
    · rw [if_neg hn] at h
      exact List.mem_cons_of_mem _ (ih var vs h)

theorem lookupCol_map (f : List Int → List Int) :
    ∀ (cols : List (String × List Int)) (var : String),
      lookupCol (cols.map (fun c => (c.1, f c.2))) var =
        (lookupCol cols var).map f := by
  intro cols
  induction cols with
  | nil => intro var; rfl
  | cons c rest ih =>
    intro var
    unfold lookupCol
    by_cases hn : c.1 = var
    · simp [hn]
    · simp only [List.map_cons]
      rw [if_neg hn, if_neg hn]  -- careful
      exact ih var

theorem maybe_convert_eq_of_geo_eq (df d2 : DataFrame) (h : d2.geo = df.geo) :
    maybe_convert_to_geo_data_frame df d2 = d2 := by
  unfold maybe_convert_to_geo_data_frame
  rw [h]
  cases df.geo <;> simp

/-- C1 (amended): on every well-formed data frame with at least one row,
unique row index labels (as the pandas default index provides), and a column
named `var`, `data_frame_min` returns a one-row frame: the row at the first
position attaining the column's minimum — its value is the minimum, and
every earlier row holds a strictly greater value (ties are broken by
original row order).  With duplicated index labels, pandas `loc` returns
every row carrying the selected label and the result can have several rows
(see the counterexample). -/
theorem data_frame_min_first_min_row (df : DataFrame) (var : String)
    (vs : List Int) (hwf : wfFrame df = true) (hnd : df.index.Nodup)
    (hcol : lookupCol df.cols var = some vs) (hne : vs ≠ []) :
    ∃ r, data_frame_min df var = some r ∧
      rowCount r = 1 ∧
      r.index = [df.index.getD (argminPos vs) 0] ∧
      lookupCol r.cols var = some [vs.getD (argminPos vs) 0] ∧
      vs.getD (argminPos vs) 0 = minVal vs ∧
      (∀ x ∈ vs, vs.getD (argminPos vs) 0 ≤ x) ∧
      (∀ q, q < argminPos vs → minVal vs < vs.getD q 0) := by
  have hmem : minVal vs ∈ vs := minVal_mem vs hne
  have hjlt : argminPos vs < vs.length := firstIdx_lt hmem
  have hlenv : vs.length = df.index.length := by
    have h2 := lookupCol_mem df.cols var vs hcol
    have h3 := hwf
    simp only [wfFrame, List.all_eq_true, decide_eq_true_eq] at h3
    exact h3 (var, vs) h2
  have hplt : argminPos vs < df.index.length := hlenv ▸ hjlt
  have hgd : vs.getD (argminPos vs) 0 = minVal vs := firstIdx_getD hmem
  have hidx : df.index.filter
      (fun i => i = df.index.getD (argminPos vs) 0) =
      [df.index.getD (argminPos vs) 0] :=
    filter_label_singleton df.index hnd (argminPos vs) hplt
  have hsel : selectByLabel df.index vs (df.index.getD (argminPos vs) 0) =
      [vs.getD (argminPos vs) 0] :=
    selectByLabel_singleton df.index vs (argminPos vs) hnd hlenv hplt
  have hie : vs.isEmpty = false := by
    cases vs with
    | nil => exact absurd rfl hne
    | cons a l => rfl
  refine ⟨locLabel df (df.index.getD (argminPos vs) 0), ?_, ?_, ?_, ?_, hgd,
    ?_, ?_⟩
  · unfold data_frame_min
    rw [hcol]
    dsimp only
    rw [hie]
    simp only [Bool.false_eq_true, if_false]
    rw [maybe_convert_eq_of_geo_eq df
      (locLabel df (df.index.getD (argminPos vs) 0)) rfl]
  · show (df.index.filter
      (fun i => i = df.index.getD (argminPos vs) 0)).length = 1
    rw [hidx]
    rfl
  · exact hidx
  · show lookupCol (df.cols.map (fun c => (c.1, selectByLabel df.index c.2
      (df.index.getD (argminPos vs) 0)))) var = _
    rw [lookupCol_map (fun ws => selectByLabel df.index ws
      (df.index.getD (argminPos vs) 0)) df.cols var, hcol]
    rw [show Option.map (fun ws => selectByLabel df.index ws
        (df.index.getD (argminPos vs) 0)) (some vs) =
      some (selectByLabel df.index vs (df.index.getD (argminPos vs) 0)) from
      rfl]
    rw [hsel]
  · intro x hx
    rw [hgd]
    exact minVal_le vs x hx
  · intro q hq
    have hne2 : vs.getD q 0 ≠ minVal vs := firstIdx_earlier hmem q hq
    have hle : minVal vs ≤ vs.getD q 0 :=
      minVal_le vs _ (getD_mem_of_lt 0 vs q (lt_trans hq hjlt))
    exact lt_of_le_of_ne hle (Ne.symm hne2)

/-- Witness for C1 on the specification's example: the three-row table with
column `population` and values `[3, 1, 2]` yields exactly the one row at
position 1 — the minimal value 1 — with every earlier row strictly
greater. -/
theorem data_frame_min_first_min_row_witness :
    (wfFrame dfPop = true ∧ dfPop.index.Nodup ∧
      lookupCol dfPop.cols "population" = some [3, 1, 2] ∧
      ([3, 1, 2] : List Int) ≠ []) ∧
    (∃ r, data_frame_min dfPop "population" = some r ∧
      rowCount r = 1 ∧
      r.index = [dfPop.index.getD (argminPos [3, 1, 2]) 0] ∧
      lookupCol r.cols "population" =
        some [([3, 1, 2] : List Int).getD (argminPos [3, 1, 2]) 0] ∧
      ([3, 1, 2] : List Int).getD (argminPos [3, 1, 2]) 0 = minVal [3, 1, 2] ∧
      (∀ x ∈ ([3, 1, 2] : List Int),
        ([3, 1, 2] : List Int).getD (argminPos [3, 1, 2]) 0 ≤ x) ∧
      (∀ q, q < argminPos [3, 1, 2] →
        minVal [3, 1, 2] < ([3, 1, 2] : List Int).getD q 0)) :=
  ⟨⟨by decide, by decide, by decide, by decide⟩,
    data_frame_min_first_min_row dfPop "population" [3, 1, 2] (by decide)
      (by decide) (by decide) (by decide)⟩

/-- C1 counterexample: on a frame whose two rows share the index label 7
(column `a` holding `[1, 2]`), `data_frame_min` returns a frame with two
rows, not exactly one: `idxmin` returns the label 7 of the minimal row and
`loc[[7]]` selects every row labelled 7. -/
theorem data_frame_min_two_rows_counterexample :
    (data_frame_min dfDup "a").map rowCount = some 2 ∧
    (data_frame_min dfDup "a").map rowCount ≠ some 1 ∧
    dfDup.index = [7, 7] := by
  refine ⟨by decide, by decide, by decide⟩

/-- C8: each data-frame operation preserves geo-frame-ness — the returned
frame has the kind and the crs of the (converted) input frame, and it is
exactly the computed subset frame, returned unchanged
(`_maybe_convert_to_geo_data_frame` only rebuilds when the subset dropped
geo-ness, which row selection never does). -/
theorem data_frame_ops_preserve_geo (df : DataFrame) (var : String)
    (q : Nat → Bool) :
    (∀ r, data_frame_min df var = some r →
      r.geo = df.geo ∧ r.crs = df.crs ∧ ∃ lbl, r = locLabel df lbl) ∧
    (∀ r, data_frame_max df var = some r →
      r.geo = df.geo ∧ r.crs = df.crs ∧ ∃ lbl, r = locLabel df lbl) ∧
    ((data_frame_query df q).geo = df.geo ∧
      (data_frame_query df q).crs = df.crs ∧
      data_frame_query df q = filterRows df q) := by
  refine ⟨?_, ?_, ?_⟩
  · intro r hr
    unfold data_frame_min at hr
    cases hcol : lookupCol df.cols var with
    | none => rw [hcol] at hr; cases hr
    | some vs =>
      rw [hcol] at hr
      dsimp only at hr
      cases hie : vs.isEmpty with
      | true => rw [hie] at hr; simp at hr
      | false =>
        rw [hie] at hr
        simp only [Bool.false_eq_true, if_false] at hr
        rw [maybe_convert_eq_of_geo_eq df
          (locLabel df (df.index.getD (argminPos vs) 0)) rfl] at hr
        have hr2 := Option.some.inj hr
        refine ⟨by rw [← hr2]; rfl, by rw [← hr2]; rfl, ⟨_, hr2.symm⟩⟩
  · intro r hr
    unfold data_frame_max at hr
    cases hcol : lookupCol df.cols var with
    | none => rw [hcol] at hr; cases hr
    | some vs =>
      rw [hcol] at hr
      dsimp only at hr
      cases hie : vs.isEmpty with
      | true => rw [hie] at hr; simp at hr
      | false =>
        rw [hie] at hr
        simp only [Bool.false_eq_true, if_false] at hr
        rw [maybe_convert_eq_of_geo_eq df
          (locLabel df (df.index.getD (argmaxPos vs) 0)) rfl] at hr
        have hr2 := Option.some.inj hr
        refine ⟨by rw [← hr2]; rfl, by rw [← hr2]; rfl, ⟨_, hr2.symm⟩⟩
  · unfold data_frame_query
    rw [maybe_convert_eq_of_geo_eq df (filterRows df q) rfl]
    exact ⟨rfl, rfl, rfl⟩

/-- Witness for C8 on a concrete geo-frame: selecting the minimal row of
`dfGeo` keeps the geo kind and the crs, and equals the computed row
selection. -/
theorem data_frame_ops_preserve_geo_witness :
    data_frame_min dfGeo "a" = some (locLabel dfGeo 1) ∧
    ((locLabel dfGeo 1).geo = dfGeo.geo ∧
      (locLabel dfGeo 1).crs = dfGeo.crs ∧
      ∃ lbl, locLabel dfGeo 1 = locLabel dfGeo lbl) :=
  ⟨by decide,
    (data_frame_ops_preserve_geo dfGeo "a" (fun _ => true)).1
      (locLabel dfGeo 1) (by decide)⟩

theorem stepIndex_lt : ∀ (steps : List StepDef) (s : String) (i : Nat),
    stepIndex steps s = some i → i < steps.length := by
  intro steps
  induction steps with
  | nil => intro s i h; cases h
  | cons st rest ih =>
    intro s i h
    unfold stepIndex at h
    by_cases hn : st.name = s
    · rw [if_pos hn] at h
      have : (0 : Nat) = i := Option.some.inj h
      simp [← this]
    · rw [if_neg hn] at h
      cases hrec : stepIndex rest s with
      | none => rw [hrec] at h; cases h
      | some k =>
        rw [hrec] at h
        have hk := ih s k hrec
        have : k + 1 = i := Option.some.inj h
        simp only [List.length_cons]
        omega

theorem depsOf_lt {g : GraphDef} {j d : Nat} (h : d ∈ depsOf g j) :
    d < g.steps.length := by
  unfold depsOf at h
  cases hget : g.steps.get? j with
  | none => rw [hget] at h; cases h
  | some st =>
    rw [hget] at h
    obtain ⟨pb, _, hpb⟩ := List.mem_filterMap.mp h
    cases hb : pb.2 with
    | stepOutput s p =>
      rw [hb] at hpb
      exact stepIndex_lt g.steps s d hpb
    | lit v => rw [hb] at hpb; cases hpb
    | graphInput nm => rw [hb] at hpb; cases hpb

theorem dep_lt_left {g : GraphDef} {i j : Nat} (h : dep g i j) :
    i < g.steps.length := depsOf_lt h

theorem dep_lt_right {g : GraphDef} {i j : Nat} (h : dep g i j) :
    j < g.steps.length := by
  unfold dep depsOf at h
  cases hget : g.steps.get? j with
  | none => rw [hget] at h; cases h
  | some st =>
    cases Nat.lt_or_ge j g.steps.length with
    | inl hlt => exact hlt
    | inr hge =>
      have : g.steps.get? j = none := List.get?_eq_none.mpr hge
      rw [this] at hget
      cases hget

theorem tclosed_mem {g : GraphDef} :
    ∀ {l : List Nat} {c a : Nat}, TClosed g l → c ∈ l →
      Relation.TransGen (dep g) a c → a ∈ l := by
  intro l
  induction l with
  | nil => intro c a _ hc; cases hc
  | cons x r ih =>
    intro c a h hc ht
    obtain ⟨hx, hr⟩ := h
    rcases List.mem_cons.mp hc with rfl | hc2
    · exact List.mem_cons_of_mem _ (hx a ht)
    · exact List.mem_cons_of_mem _ (ih hr hc2 ht)

theorem tclosed_extend {g : GraphDef} {l : List Nat} {j : Nat}
    (h : TClosed g l) (hd : ∀ d ∈ depsOf g j, d ∈ l) : TClosed g (j :: l) := by
  refine ⟨?_, h⟩
  intro a ht
  cases ht with
  | single he => exact hd a he
  | tail ht2 he => exact tclosed_mem h (hd _ he) ht2

theorem tclosed_no_self {g : GraphDef} :
    ∀ {l : List Nat}, TClosed g l → l.Nodup →
      ∀ i ∈ l, ¬ Relation.TransGen (dep g) i i := by
  intro l
  induction l with
  | nil => intro _ _ i hi; cases hi
  | cons x r ih =>
    intro h hnd i hi hti
    obtain ⟨hx, hr⟩ := h
    obtain ⟨hnx, hnr⟩ := List.nodup_cons.mp hnd
    rcases List.mem_cons.mp hi with rfl | hi2
    · exact hnx (hx i hti)
    · exact ih hr hnr i hi2 hti

theorem tclosed_pairwise {g : GraphDef} :
    ∀ {l : List Nat}, TClosed g l → l.Nodup →
      l.Pairwise (fun u v => ¬ dep g u v) := by
  intro l
  induction l with
  | nil => intro _ _; exact List.Pairwise.nil
  | cons x r ih =>
    intro h hnd
    obtain ⟨hx, hr⟩ := h
    obtain ⟨hnx, hnr⟩ := List.nodup_cons.mp hnd
    refine List.Pairwise.cons ?_ (ih hr hnr)
    intro v hv hdep
    exact hnx (tclosed_mem hr hv (Relation.TransGen.single hdep))

theorem transGen_depF_val {g : GraphDef} {a b : Fin g.steps.length}
    (h : Relation.TransGen (depF g) a b) :
    Relation.TransGen (dep g) a.val b.val := by
  induction h with
  | single e => exact Relation.TransGen.single e
  | tail h2 e ih => exact Relation.TransGen.tail ih e

theorem acyclic_of_forward {g : GraphDef}
    (h : ∀ i j, dep g i j → i < j) : Acyclic g := by
  intro i hti
  have hmono : ∀ a b, Relation.TransGen (dep g) a b → a < b := by
    intro a b ht
    induction ht with
    | single e => exact h _ _ e
    | tail h2 e ih => exact lt_trans ih (h _ _ e)
  exact lt_irrefl i (hmono i i hti)

theorem readyB_iff (g : GraphDef) (done : List Nat) (j : Nat) :
    readyB g done j = true ↔ ∀ d ∈ depsOf g j, d ∈ done := by
  unfold readyB
  simp [List.all_eq_true]

theorem kahn_progress {g : GraphDef} (hacy : Acyclic g)
    (doneRev rem : List Nat)
    (hcov : ∀ x, x < g.steps.length → x ∈ doneRev ∨ x ∈ rem)
    (hremlt : ∀ x ∈ rem, x < g.steps.length)
    (hne : rem ≠ []) :
    ∃ j ∈ rem, readyB g doneRev j = true := by
  haveI ht : IsTrans (Fin g.steps.length) (Relation.TransGen (depF g)) :=
    ⟨fun _ _ _ hab hbc => Relation.TransGen.trans hab hbc⟩
  haveI hi : IsIrrefl (Fin g.steps.length) (Relation.TransGen (depF g)) :=
    ⟨fun x hx => hacy x.val (transGen_depF_val hx)⟩
  have wf : WellFounded (Relation.TransGen (depF g)) :=
    Finite.wellFounded_of_trans_of_irrefl _
  obtain ⟨r, hr⟩ := List.exists_mem_of_ne_nil rem hne
  obtain ⟨m, hmS, hmin⟩ := wf.has_min
    (fun x : Fin g.steps.length => x.val ∈ rem) ⟨⟨r, hremlt r hr⟩, hr⟩
  refine ⟨m.val, hmS, ?_⟩
  refine (readyB_iff g doneRev m.val).mpr ?_
  intro d hd
  have hdlt : d < g.steps.length := depsOf_lt hd
  rcases hcov d hdlt with hdone | hrem2
  · exact hdone
  · exact absurd (Relation.TransGen.single hd) (hmin ⟨d, hdlt⟩ hrem2)

theorem kahnAux_spec (g : GraphDef) :
    ∀ (fuel : Nat) (doneRev rem : List Nat),
      rem.length = fuel →
      doneRev.Nodup → rem.Nodup →
      (∀ x ∈ doneRev, x ∉ rem) →
      (∀ x, x < g.steps.length → x ∈ doneRev ∨ x ∈ rem) →
      (∀ x ∈ doneRev, x < g.steps.length) →
      (∀ x ∈ rem, x < g.steps.length) →
      TClosed g doneRev →
      (kahnAux g fuel doneRev rem).Nodup ∧
      TClosed g (kahnAux g fuel doneRev rem) ∧
      (∀ x ∈ kahnAux g fuel doneRev rem, x < g.steps.length) ∧
      (∀ x ∈ doneRev, x ∈ kahnAux g fuel doneRev rem) ∧
      (Acyclic g → ∀ x, x < g.steps.length → x ∈ kahnAux g fuel doneRev rem) := by
  intro fuel
  induction fuel with
  | zero =>
    intro doneRev rem hlen hnd hndr hdisj hcov hdlt hrlt hcl
    have hrem : rem = [] := List.length_eq_zero.mp hlen
    subst hrem
    refine ⟨hnd, hcl, hdlt, fun x hx => hx, ?_⟩
    intro _ x hx
    rcases hcov x hx with h | h
    · exact h
    · cases h
  | succ n ih =>
    intro doneRev rem hlen hnd hndr hdisj hcov hdlt hrlt hcl
    cases hfind : rem.find? (readyB g doneRev) with
    | none =>
      have hres : kahnAux g (n + 1) doneRev rem = doneRev := by
        unfold kahnAux
        rw [hfind]
      rw [hres]
      refine ⟨hnd, hcl, hdlt, fun x hx => hx, ?_⟩
      intro hacy x hx
      exfalso
      have hne : rem ≠ [] := by
        intro he
        rw [he] at hlen
        cases hlen
      obtain ⟨j, hj, hready⟩ := kahn_progress hacy doneRev rem hcov hrlt hne
      have := List.find?_eq_none.mp hfind j hj
      exact this hready
    | some j =>
      have hready : readyB g doneRev j = true := List.find?_some hfind
      have hjrem : j ∈ rem := List.mem_of_find?_eq_some hfind
      have hjnotdone : j ∉ doneRev := fun hjd => hdisj j hjd hjrem
      have hjlt : j < g.steps.length := hrlt j hjrem
      have hdeps : ∀ d ∈ depsOf g j, d ∈ doneRev :=
        (readyB_iff g doneRev j).mp hready
      have hres : kahnAux g (n + 1) doneRev rem =
          kahnAux g n (j :: doneRev) (rem.erase j) := by
        conv in kahnAux g (n + 1) doneRev rem => unfold kahnAux
        rw [hfind]
      rw [hres]
      have hlen2 : (rem.erase j).length = n := by
        rw [List.length_erase_of_mem hjrem, hlen]
        omega
      have hnd2 : (j :: doneRev).Nodup := List.nodup_cons.mpr ⟨hjnotdone, hnd⟩
      have hndr2 : (rem.erase j).Nodup := hndr.erase j
      have hdisj2 : ∀ x ∈ j :: doneRev, x ∉ rem.erase j := by
        intro x hx hxe
        rcases List.mem_cons.mp hx with rfl | hx2
        · have := (List.Nodup.mem_erase_iff hndr).mp hxe
          exact this.1 rfl
        · exact hdisj x hx2 (List.mem_of_mem_erase hxe)
      have hcov2 : ∀ x, x < g.steps.length →
          x ∈ j :: doneRev ∨ x ∈ rem.erase j := by
        intro x hx
        rcases hcov x hx with h | h
        · exact Or.inl (List.mem_cons_of_mem _ h)
        · by_cases hxj : x = j
          · exact Or.inl (hxj ▸ List.mem_cons_self _ _)
          · exact Or.inr ((List.Nodup.mem_erase_iff hndr).mpr ⟨hxj, h⟩)
      have hdlt2 : ∀ x ∈ j :: doneRev, x < g.steps.length := by
        intro x hx
        rcases List.mem_cons.mp hx with rfl | hx2
        · exact hjlt
        · exact hdlt x hx2
      have hrlt2 : ∀ x ∈ rem.erase j, x < g.steps.length :=
        fun x hx => hrlt x (List.mem_of_mem_erase hx)
      have hcl2 : TClosed g (j :: doneRev) := tclosed_extend hcl hdeps
      obtain ⟨a1, a2, a3, a4, a5⟩ :=
        ih (j :: doneRev) (rem.erase j) hlen2 hnd2 hndr2 hdisj2 hcov2
          hdlt2 hrlt2 hcl2
      exact ⟨a1, a2, a3,
        fun x hx => a4 x (List.mem_cons_of_mem _ hx), a5⟩

theorem kahn_res_spec (g : GraphDef) :
    (kahnAux g g.steps.length [] (List.range g.steps.length)).Nodup ∧
    TClosed g (kahnAux g g.steps.length [] (List.range g.steps.length)) ∧
    (∀ x ∈ kahnAux g g.steps.length [] (List.range g.steps.length),
      x < g.steps.length) ∧
    (Acyclic g → ∀ x, x < g.steps.length →
      x ∈ kahnAux g g.steps.length [] (List.range g.steps.length)) := by
  obtain ⟨a1, a2, a3, _, a5⟩ :=
    kahnAux_spec g g.steps.length [] (List.range g.steps.length)
      (List.length_range _) List.nodup_nil (List.nodup_range _)
      (by intro x h; cases h)
      (fun x hx => Or.inr (List.mem_range.mpr hx))
      (by intro x h; cases h)
      (fun x hx => List.mem_range.mp hx)
      trivial
  exact ⟨a1, a2, a3, a5⟩

theorem schedule_nodup (g : GraphDef) : (schedule g).Nodup := by
  unfold schedule
  exact List.nodup_reverse.mpr (kahn_res_spec g).1

theorem schedule_mem_lt (g : GraphDef) :
    ∀ x ∈ schedule g, x < g.steps.length := by
  intro x hx
  exact (kahn_res_spec g).2.2.1 x (List.mem_reverse.mp hx)

theorem schedule_complete (g : GraphDef) (hacy : Acyclic g) :
    ∀ x, x < g.steps.length → x ∈ schedule g := by
  intro x hx
  exact List.mem_reverse.mpr ((kahn_res_spec g).2.2.2 hacy x hx)

theorem schedule_pairwise (g : GraphDef) :
    (schedule g).Pairwise (fun x y => ¬ dep g y x) := by
  unfold schedule
  exact List.pairwise_reverse.mpr (tclosed_pairwise (kahn_res_spec g).2.1
    (kahn_res_spec g).1)

theorem schedule_length (g : GraphDef) (hacy : Acyclic g) :
    (schedule g).length = g.steps.length := by
  have hsub : schedule g ⊆ List.range g.steps.length := by
    intro x hx
    exact List.mem_range.mpr (schedule_mem_lt g x hx)
  have hsup : List.range g.steps.length ⊆ schedule g := by
    intro x hx
    exact schedule_complete g hacy x (List.mem_range.mp hx)
  have h1 : (schedule g).length ≤ g.steps.length := by
    have := (List.subperm_of_subset (schedule_nodup g) hsub).length_le
    simpa using this
  have h2 : g.steps.length ≤ (schedule g).length := by
    have := (List.subperm_of_subset (List.nodup_range _) hsup).length_le
    simpa using this
  omega

theorem acyclic_of_schedule_complete (g : GraphDef)
    (hlen : (schedule g).length = g.steps.length) : Acyclic g := by
  intro i hti
  have hilt : i < g.steps.length := by
    cases hti with
    | single e => exact dep_lt_right e
    | tail h2 e => exact dep_lt_right e
  have hsub : schedule g ⊆ List.range g.steps.length := by
    intro x hx
    exact List.mem_range.mpr (schedule_mem_lt g x hx)
  have hperm : List.Perm (schedule g) (List.range g.steps.length) := by
    refine (List.subperm_of_subset (schedule_nodup g) hsub).perm_of_length_le ?_
    simp [hlen]
  have hmem : i ∈ schedule g :=
    hperm.mem_iff.mpr (List.mem_range.mpr hilt)
  exact tclosed_no_self (kahn_res_spec g).2.1 (kahn_res_spec g).1 i
    (List.mem_reverse.mp hmem) hti

theorem depsSeq_append (g : GraphDef) :
    ∀ (xs ys done : List Nat),
      DepsSeq g (xs ++ ys) done ↔
        (DepsSeq g xs done ∧ DepsSeq g ys (xs.reverse ++ done)) := by
  intro xs
  induction xs with
  | nil =>
    intro ys done
    simp [DepsSeq]
  | cons x xr ih =>
    intro ys done
    show ((∀ d ∈ depsOf g x, d ∈ done) ∧ DepsSeq g (xr ++ ys) (x :: done)) ↔
      (((∀ d ∈ depsOf g x, d ∈ done) ∧ DepsSeq g xr (x :: done)) ∧
        DepsSeq g ys ((x :: xr).reverse ++ done))
    rw [ih ys (x :: done), List.reverse_cons, List.append_assoc,
      List.singleton_append]
    tauto

theorem depsSeq_of_tclosed (g : GraphDef) :
    ∀ (l : List Nat), TClosed g l → DepsSeq g l.reverse [] := by
  intro l
  induction l with
  | nil => intro _; trivial
  | cons j rest ih =>
    intro h
    obtain ⟨hj, hr⟩ := h
    rw [List.reverse_cons]
    refine (depsSeq_append g rest.reverse [j] []).mpr ⟨ih hr, ?_⟩
    rw [List.reverse_reverse, List.append_nil]
    exact ⟨fun d hd => hj d (Relation.TransGen.single hd), trivial⟩

theorem depsSeq_schedule (g : GraphDef) : DepsSeq g (schedule g) [] := by
  unfold schedule
  exact depsSeq_of_tclosed g _ (kahn_res_spec g).2.1

theorem resolveInputs_ok (g : GraphDef) (ext : String → Option PyVal)
    (outs : List (Nat × (String → PyVal))) :
    ∀ (inputs : List (String × Binding)),
      (∀ pb ∈ inputs,
        match pb.2 with
        | Binding.lit _ => True
        | Binding.graphInput nm => (resolveGraphInput g ext nm).isSome = true
        | Binding.stepOutput s _ => ∃ i, stepIndex g.steps s = some i ∧
            (outsLookup outs i).isSome = true) →
      ∃ ins, resolveInputs g ext outs inputs = some ins := by
  intro inputs
  induction inputs with
  | nil => intro _; exact ⟨[], rfl⟩
  | cons pb rest ih =>
    intro h
    have hhd := h pb (List.mem_cons_self _ _)
    have hv : ∃ v, resolveBinding g ext outs pb.2 = some v := by
      cases hb : pb.2 with
      | lit v => exact ⟨v, rfl⟩
      | graphInput nm =>
        rw [hb] at hhd
        dsimp only at hhd
        cases hg : resolveGraphInput g ext nm with
        | none => rw [hg] at hhd; cases hhd
        | some v =>
          refine ⟨v, ?_⟩
          simp only [resolveBinding]
          exact hg
      | stepOutput s p =>
        rw [hb] at hhd
        dsimp only at hhd
        obtain ⟨i, hsi, hlk⟩ := hhd
        cases hf : outsLookup outs i with
        | none => rw [hf] at hlk; cases hlk
        | some f =>
          refine ⟨f p, ?_⟩
          simp only [resolveBinding]
          rw [hsi]
          dsimp only
          rw [hf]
    obtain ⟨v, hv2⟩ := hv
    obtain ⟨ins, hins⟩ := ih (fun q hq => h q (List.mem_cons_of_mem _ hq))
    refine ⟨(pb.1, v) :: ins, ?_⟩
    show resolveInputs g ext outs (pb :: rest) = _
    rw [show resolveInputs g ext outs (pb :: rest) =
      (match resolveBinding g ext outs pb.2 with
      | none => none
      | some v =>
        match resolveInputs g ext outs rest with
        | none => none
        | some vs => some ((pb.1, v) :: vs)) from by
        cases pb
        rfl]
    rw [hv2, hins]

theorem execSteps_ok (g : GraphDef) (reg : GraphOpRegistry)
    (ext : String → Option PyVal)
    (hops : ∀ st ∈ g.steps, (gregLookup reg st.op).isSome = true)
    (hbr : ∀ st ∈ g.steps, ∀ pb ∈ st.inputs, bindingResolvesB g pb.2 = true)
    (hbv : ∀ st ∈ g.steps, ∀ pb ∈ st.inputs,
      bindingHasValueB g ext pb.2 = true) :
    ∀ (l done : List Nat) (outs : List (Nat × (String → PyVal))),
      DepsSeq g l done →
      (∀ j ∈ l, j < g.steps.length) →
      (∀ d ∈ done, (outsLookup outs d).isSome = true) →
      ∃ outs2, execSteps g reg ext l outs = some outs2 ∧
        (∀ d ∈ done, (outsLookup outs2 d).isSome = true) ∧
        (∀ j ∈ l, (outsLookup outs2 j).isSome = true) := by
  intro l
  induction l with
  | nil =>
    intro done outs _ _ hdone
    exact ⟨outs, rfl, hdone, by intro j hj; cases hj⟩
  | cons j rest ih =>
    intro done outs hseq hlt hdone
    obtain ⟨hdj, hseq2⟩ := hseq
    have hjlt : j < g.steps.length := hlt j (List.mem_cons_self _ _)
    obtain ⟨st, hget⟩ : ∃ st, g.steps.get? j = some st := by
      cases hg : g.steps.get? j with
      | none =>
        exfalso
        have := List.get?_eq_none.mp hg
        omega
      | some st => exact ⟨st, rfl⟩
    have hstmem : st ∈ g.steps := List.get?_mem hget
    have hop := hops st hstmem
    cases hlop : gregLookup reg st.op with
    | none => rw [hlop] at hop; cases hop
    | some op =>
      have hins : ∃ ins, resolveInputs g ext outs st.inputs = some ins := by
        apply resolveInputs_ok
        intro pb hpb
        cases hb : pb.2 with
        | lit v => trivial
        | graphInput nm =>
          dsimp only
          have hh := hbv st hstmem pb hpb
          rw [hb] at hh
          simp only [bindingHasValueB] at hh
          exact hh
        | stepOutput s p =>
          dsimp only
          have hres := hbr st hstmem pb hpb
          rw [hb] at hres
          simp only [bindingResolvesB] at hres
          cases hsi : stepIndex g.steps s with
          | none => rw [hsi] at hres; cases hres
          | some i =>
            refine ⟨i, rfl, ?_⟩
            have hdep : i ∈ depsOf g j := by
              unfold depsOf
              rw [hget]
              refine List.mem_filterMap.mpr ⟨pb, hpb, ?_⟩
              rw [hb]
              exact hsi
            exact hdone i (hdj i hdep)
      obtain ⟨ins, hins2⟩ := hins
      have hstep : execSteps g reg ext (j :: rest) outs =
          execSteps g reg ext rest ((j, op.run ins) :: outs) := by
        simp only [execSteps]
        rw [hget]
        dsimp only
        rw [hlop]
        dsimp only
        rw [hins2]
      rw [hstep]
      have hdone2 : ∀ d ∈ j :: done,
          (outsLookup ((j, op.run ins) :: outs) d).isSome = true := by
        intro d hd
        rcases List.mem_cons.mp hd with rfl | hd2
        · unfold outsLookup
          rw [if_pos rfl]
          rfl
        · unfold outsLookup
          by_cases hdj2 : j = d
          · rw [if_pos hdj2]
            rfl
          · rw [if_neg hdj2]
            exact hdone d hd2
      obtain ⟨outs2, h1, h2, h3⟩ := ih (j :: done) ((j, op.run ins) :: outs)
        hseq2 (fun x hx => hlt x (List.mem_cons_of_mem _ hx)) hdone2
      refine ⟨outs2, h1, fun d hd => h2 d (List.mem_cons_of_mem _ hd), ?_⟩
      intro x hx
      rcases List.mem_cons.mp hx with rfl | hx2
      · exact h2 x (List.mem_cons_self _ _)
      · exact h3 x hx2

theorem resolveOutputs_ok (g : GraphDef) (outs : List (Nat × (String → PyVal))) :
    ∀ (decls : List (String × String × String)),
      (∀ o ∈ decls, ∃ i, stepIndex g.steps o.2.1 = some i ∧
        (outsLookup outs i).isSome = true) →
      ∃ res, resolveOutputs g outs decls = some res ∧
        res.map Prod.fst = decls.map (fun o => o.1) := by
  intro decls
  induction decls with
  | nil => intro _; exact ⟨[], rfl, rfl⟩
  | cons o rest ih =>
    intro h
    obtain ⟨onm, s, p⟩ := o
    obtain ⟨i, hsi, hlk⟩ := h (onm, s, p) (List.mem_cons_self _ _)
    dsimp only at hsi
    cases hf : outsLookup outs i with
    | none => rw [hf] at hlk; cases hlk
    | some f =>
      obtain ⟨res, h1, h2⟩ := ih (fun o2 ho2 => h o2 (List.mem_cons_of_mem _ ho2))
      refine ⟨(onm, f p) :: res, ?_, ?_⟩
      · simp only [resolveOutputs]
        rw [hsi]
        dsimp only
        rw [hf]
        dsimp only
        rw [h1]
      · simp [h2]

/-- C7: for every well-formed, acyclic graph whose graph-level-input-bound
ports are all resolvable (bound or defaulted; literal and predecessor-fed
ports are resolvable by construction), invocation terminates successfully
(`graphInvoke` is a total function and returns `some`), produces a value for
every declared graph-level output (the result names are exactly the declared
output names in order), and executes the steps in a topological order — the
schedule covers every step exactly once and no earlier step depends on a
later one; ties among simultaneously ready steps are broken by declaration
order by construction of the scheduler (`find?` over the remaining steps in
declaration order). -/
theorem graph_invoke_total (g : GraphDef) (reg : GraphOpRegistry)
    (ext : String → Option PyVal)
    (hacy : Acyclic g) (hwf : WfGraph reg g) (hres : ResolvableInputs g ext) :
    ∃ res, graphInvoke g reg ext = some res ∧
      res.map Prod.fst = g.outputs.map (fun o => o.1) ∧
      (schedule g).Nodup ∧
      (∀ x, x ∈ schedule g ↔ x < g.steps.length) ∧
      (schedule g).Pairwise (fun x y => ¬ dep g y x) := by
  obtain ⟨hops, hbr, hout⟩ := hwf
  have hlen := schedule_length g hacy
  have hseq := depsSeq_schedule g
  obtain ⟨outs2, hexec, _, houts⟩ := execSteps_ok g reg ext hops hbr hres
    (schedule g) [] [] hseq (schedule_mem_lt g) (by intro d hd; cases hd)
  have hresolve : ∀ o ∈ g.outputs, ∃ i, stepIndex g.steps o.2.1 = some i ∧
      (outsLookup outs2 i).isSome = true := by
    intro o ho
    have h1 := hout o ho
    cases hsi : stepIndex g.steps o.2.1 with
    | none => rw [hsi] at h1; cases h1
    | some i =>
      refine ⟨i, rfl, ?_⟩
      have hilt : i < g.steps.length := stepIndex_lt _ _ _ hsi
      exact houts i (schedule_complete g hacy i hilt)
  obtain ⟨res, hro, hmap⟩ := resolveOutputs_ok g outs2 g.outputs hresolve
  refine ⟨res, ?_, hmap, schedule_nodup g, ?_, schedule_pairwise g⟩
  · show (if (schedule g).length = g.steps.length then
        match execSteps g reg ext (schedule g) [] with
        | none => none
        | some outs => resolveOutputs g outs g.outputs
      else none) = some res
    rw [if_pos hlen, hexec]
    exact hro
  · intro x
    exact ⟨fun hx => schedule_mem_lt g x hx,
      fun hx => schedule_complete g hacy x hx⟩

/-- Witness for C7 on the specification's two-step example graph `A → B`:
the acyclicity, well-formedness and resolvability hypotheses hold and the
invocation produces a value for the declared output `z`. -/
theorem graph_invoke_total_witness :
    (Acyclic gAB ∧ WfGraph greg2 gAB ∧ ResolvableInputs gAB envNone) ∧
    (∃ res, graphInvoke gAB greg2 envNone = some res ∧
      res.map Prod.fst = gAB.outputs.map (fun o => o.1) ∧
      (schedule gAB).Nodup ∧
      (∀ x, x ∈ schedule gAB ↔ x < gAB.steps.length) ∧
      (schedule gAB).Pairwise (fun x y => ¬ dep gAB y x)) := by
  have hacy : Acyclic gAB := by
    apply acyclic_of_forward
    intro i j h
    have h2 : i ∈ depsOf gAB j := h
    cases j with
    | zero =>
      rw [show depsOf gAB 0 = [] from rfl] at h2
      cases h2
    | succ j1 =>
      cases j1 with
      | zero =>
        rw [show depsOf gAB 1 = [0] from rfl] at h2
        have : i = 0 := by simpa using h2
        omega
      | succ j2 =>
        rw [show depsOf gAB (j2 + 2) = [] from rfl] at h2
        cases h2
  have hwf : WfGraph greg2 gAB := by
    refine ⟨?_, ?_, ?_⟩ <;> decide
  have hres : ResolvableInputs gAB envNone := by
    unfold ResolvableInputs
    decide
  exact ⟨⟨hacy, hwf, hres⟩, graph_invoke_total gAB greg2 envNone hacy hwf hres⟩

/-- C5: a graph definition containing a reference to an unknown operation, a
reference to a nonexistent step, port or graph input, or a dependency cycle
is rejected by `graphLoad` with a `GraphFormatError` (carrying the offending
reference or the unscheduled steps of the cycle).  Loading is pure
validation: on error no `GraphDef` value is produced, so no step can be
executed. -/
theorem graph_load_rejects_malformed (reg : GraphOpRegistry) (g : GraphDef)
    (h : (∃ st ∈ g.steps, gregLookup reg st.op = none) ∨
      firstBadRef reg g ≠ none ∨
      (∃ i, Relation.TransGen (dep g) i i)) :
    ∃ e, graphLoad reg g = Except.error e := by
  unfold graphLoad
  cases hfind : g.steps.find? (fun st => (gregLookup reg st.op).isNone) with
  | some st => exact ⟨_, rfl⟩
  | none =>
    have hnoU : ∀ st ∈ g.steps, gregLookup reg st.op ≠ none := by
      intro st hst hnone
      have h2 := List.find?_eq_none.mp hfind st hst
      rw [hnone] at h2
      exact h2 rfl
    cases hbad : firstBadRef reg g with
    | some e => exact ⟨_, rfl⟩
    | none =>
      have hcyc : ∃ i, Relation.TransGen (dep g) i i := by
        rcases h with ⟨st, hst, hnone⟩ | hb | hc
        · exact absurd hnone (hnoU st hst)
        · exact absurd hbad hb
        · exact hc
      obtain ⟨i, hti⟩ := hcyc
      dsimp only
      by_cases hlen : (schedule g).length = g.steps.length
      · exact absurd hti (acyclic_of_schedule_complete g hlen i)
      · rw [if_neg hlen]
        exact ⟨_, rfl⟩

/-- Witness for C5 on the concrete two-step cyclic graph: the cycle
hypothesis holds (steps 0 and 1 feed each other) and loading fails with a
`GraphFormatError`. -/
theorem graph_load_rejects_malformed_witness :
    (∃ i, Relation.TransGen (dep gCyc) i i) ∧
    (∃ e, graphLoad greg2 gCyc = Except.error e) := by
  have h01 : dep gCyc 0 1 := by
    show (0 : Nat) ∈ depsOf gCyc 1
    decide
  have h10 : dep gCyc 1 0 := by
    show (1 : Nat) ∈ depsOf gCyc 0
    decide
  have hcyc : ∃ i, Relation.TransGen (dep gCyc) i i :=
    ⟨0, Relation.TransGen.tail (Relation.TransGen.single h01) h10⟩
  exact ⟨hcyc, graph_load_rejects_malformed greg2 gCyc (Or.inr (Or.inr hcyc))⟩
